import Mathlib

/-!
# kong-completion: from a kong parser tree to completion commands

A shallow embedding of `prediction.go`.

* A Go function that returns a pair `(result, error)` is a function into a
  product whose second component is `Option Error` (`none` is the `nil` error).
* A Go pointer or interface value that the source compares with `nil` is an
  `Option`.  The structs of `kong` that embed a pointer (`Flag` embeds `*Value`,
  `Application` embeds `*Node`) are embedded together with what they embed,
  because the source reads the promoted fields (`flag.Name`) unconditionally;
  the methods of `*kong.Tag` are taken to return.
* A Go map is an association list; its keys are pairwise distinct as long as it
  is built with `GoMap.set`.  The order of the list is the order in which a
  `range` statement visits the map, which Go leaves unspecified, so statements
  about maps supplied by the caller are made for every order.
* The types and constants of the two libraries (`kong`, `complete`, `predict`)
  are not part of the repository; they are embedded as far as the source reads
  them.

Definitions come first, then the lemmas and the theorems for the claims of the
specification.
-/

namespace KongCompletion

/-! ## Go maps with string keys -/

/-- A Go `map[string]V`.  `entries` lists the bindings in the order a `range`
statement yields them. -/
structure GoMap (V : Type) where
  entries : List (String × V)
deriving DecidableEq, Repr

namespace GoMap

variable {V : Type}

/-- The map literal `map[string]V{}`. -/
def empty : GoMap V := ⟨[]⟩

/-- First binding of `k` in a list of entries. -/
def lookupEntries (k : String) : List (String × V) → Option V
  | [] => none
  | (k', v) :: rest => if k' = k then some v else lookupEntries k rest

/-- The comma-ok read `v, ok := m[k]`: `none` when `ok` is false. -/
def get? (m : GoMap V) (k : String) : Option V := lookupEntries k m.entries

/-- Overwrite the binding of `k` in a list of entries, or add one at the end. -/
def setEntries (k : String) (v : V) : List (String × V) → List (String × V)
  | [] => [(k, v)]
  | (k', v') :: rest => if k' = k then (k, v) :: rest else (k', v') :: setEntries k v rest

/-- The assignment `m[k] = v`. -/
def set (m : GoMap V) (k : String) (v : V) : GoMap V := ⟨setEntries k v m.entries⟩

/-- The keys of the map, in `range` order. -/
def keys (m : GoMap V) : List String := m.entries.map Prod.fst

/-- A read from a map that may be the `nil` map: a `nil` map has no binding. -/
def nilGet? (m : Option (GoMap V)) (k : String) : Option V :=
  match m with
  | none => none
  | some m => m.get? k

end GoMap

/-! ## The completion library's data (`complete`, `predict`) -/

namespace complete

/-- A non-nil `complete.Predictor`: one of the three built-ins of package
`predict` that the source uses, or a predictor supplied by the caller, which
the translation treats as an opaque value (here: its identity). -/
inductive Predictor where
  | Nothing
  | Something
  | Set (vals : List String)
  | custom (id : Nat)
deriving DecidableEq, Repr

/-- Modelled from the spec: the `Predict` method of the completion library's
predictors ("given a prefix, produce candidate completions"), which lives in
the external package and not in this repository.  The no-completion predictor
offers nothing, the fixed-set predictor offers its members; what the free-form
predictor and the caller's own predictors offer is left to the parameters. -/
def Predictor.Predict (something : String → List String) (user : Nat → String → List String) :
    Predictor → String → List String
  | .Nothing, _ => []
  | .Something, pre => something pre
  | .Set vals, _ => vals
  | .custom id, pre => user id pre

/-- The struct `complete.Command`.  Either map may be the `nil` map; `Sub`
holds the non-nil pointers the source stores in it; `Args` is `none` when it
is left unset. -/
inductive Command where
  | mk (Sub : Option (GoMap Command)) (Flags : Option (GoMap (Option Predictor)))
      (Args : Option Predictor)

namespace Command

/-- Field `Sub`. -/
def Sub : Command → Option (GoMap Command)
  | .mk sub _ _ => sub

/-- Field `Flags`. -/
def Flags : Command → Option (GoMap (Option Predictor))
  | .mk _ flags _ => flags

/-- Field `Args`. -/
def Args : Command → Option Predictor
  | .mk _ _ args => args

/-- The zero value `complete.Command{}`: both maps `nil`, no `Args`. -/
def zero : Command := .mk none none none

/-- The command found by following a path of sub-command names. -/
def subAt : Command → List String → Option Command
  | c, [] => some c
  | c, k :: ks =>
    match GoMap.nilGet? c.Sub k with
    | none => none
    | some c' => subAt c' ks

end Command

end complete

/-! ## The parser library's data (`kong`) -/

/-- The interface `kongTag` of the source: the two methods of `*kong.Tag` that
the translation calls. -/
structure kongTag where
  Has : String → Bool
  Get : String → String

namespace kong

/-- The part of `kong.Value` the source reads: `Name`, `Tag`, the result of
`IsBool()`, `Enum`, and the result of `EnumMap()`. -/
structure Value where
  Name : String
  Tag : kongTag
  IsBool : Bool
  Enum : String
  EnumMap : GoMap Bool

/-- The part of `kong.Flag` the source reads.  `kong.Flag` embeds `*Value`,
from which it takes `Name`; the source reads `flag.Name` before any check of
`flag.Value`, so a flag is embedded together with its value. -/
structure Flag where
  Value : Value
  Short : Int
  Hidden : Bool

/-- The long name `flag.Name`, promoted from the embedded value. -/
def Flag.Name (f : Flag) : String := f.Value.Name

/-- The part of `kong.Node` the source reads.  The three slices hold pointers,
each of which may be `nil`. -/
inductive Node where
  | mk (Name : String) (Hidden : Bool) (Flags : List (Option Flag))
      (Positional : List (Option Value)) (Children : List (Option Node))

namespace Node

/-- Field `Name`. -/
def Name : Node → String
  | .mk name _ _ _ _ => name

/-- Field `Hidden`. -/
def Hidden : Node → Bool
  | .mk _ hidden _ _ _ => hidden

/-- Field `Flags`. -/
def Flags : Node → List (Option Flag)
  | .mk _ _ flags _ _ => flags

/-- Field `Positional`. -/
def Positional : Node → List (Option Value)
  | .mk _ _ _ positional _ => positional

/-- Field `Children`. -/
def Children : Node → List (Option Node)
  | .mk _ _ _ _ children => children

end Node

/-- The struct `kong.Application`, which embeds `*Node`. -/
structure Application where
  Node : Node

/-- The part of `kong.Kong` the translation reads: the pointer `Model`. -/
structure Kong where
  Model : Option Application

end kong

/-! ## Options -/

/-- The only error the package creates:
`fmt.Errorf("no predictor with name %q", predictorName)`. -/
inductive Error where
  | noPredictor (predictorName : String)
deriving DecidableEq, Repr

/-- A function value handed in by the caller (`exitFunc`, `errorHandler`):
its identity, and whether a call of it returns to the caller. -/
structure Callback where
  id : Nat
  returns : Bool
deriving DecidableEq, Repr

/-- The struct `options`.  Map and function fields may be `nil`. -/
structure options where
  predictors : Option (GoMap (Option complete.Predictor))
  exitFunc : Option Callback
  errorHandler : Option Callback
  overrides : Option (GoMap Bool)
deriving DecidableEq, Repr

/-- The type `Option` of the source, `func(*options)`, as a state transformer. -/
abbrev Opt := options → options

/-- The constant `predictorTag`. -/
def predictorTag : String := "predictor"

/-- Function `WithPredictor`: bind one name, creating the map when it is `nil`. -/
def WithPredictor (name : String) (predictor : Option complete.Predictor) : Opt := fun o =>
  let predictors := match o.predictors with
    | none => GoMap.empty
    | some m => m
  { o with predictors := some (predictors.set name predictor) }

/-- The loop of `WithPredictors` over the entries of the map, in `range` order. -/
def WithPredictorsLoop : List (String × Option complete.Predictor) → Opt
  | [], o => o
  | (k, v) :: rest, o => WithPredictorsLoop rest (WithPredictor k v o)

/-- Function `WithPredictors`: apply `WithPredictor` to every binding of the map. -/
def WithPredictors (predictors : GoMap (Option complete.Predictor)) : Opt :=
  WithPredictorsLoop predictors.entries

/-- Function `WithExitFunc`: set the exit function. -/
def WithExitFunc (exitFunc : Option Callback) : Opt := fun o =>
  { o with exitFunc := exitFunc }

/-- Function `WithErrorHandler`: set the error handler. -/
def WithErrorHandler (handler : Option Callback) : Opt := fun o =>
  { o with errorHandler := handler }

/-- The inner loop of `WithFlagOverrides`: copy the bindings of one map. -/
def copyOverrides : List (String × Bool) → GoMap Bool → GoMap Bool
  | [], all => all
  | (k, v) :: rest, all => copyOverrides rest (all.set k v)

/-- The outer loop of `WithFlagOverrides` over the variadic maps. -/
def mergeOverrides : List (GoMap Bool) → GoMap Bool → GoMap Bool
  | [], all => all
  | os :: rest, all => mergeOverrides rest (copyOverrides os.entries all)

/-- Function `WithFlagOverrides`: the merged map replaces `o.overrides`. -/
def WithFlagOverrides (overrides : List (GoMap Bool)) : Opt :=
  let allOverrides := mergeOverrides overrides GoMap.empty
  fun o => { o with overrides := some allOverrides }

/-- Method `(*options).Skip`: the override of the flag's name if there is one,
the flag's own `Hidden` otherwise. -/
def options.Skip (o : options) (f : kong.Flag) : Bool :=
  match GoMap.nilGet? o.overrides f.Name with
  | none => f.Hidden
  | some doShow => !doShow

/-- The loop of `buildOptions`. -/
def applyOptions : List Opt → options → options
  | [], opts => opts
  | o :: rest, opts => applyOptions rest (o opts)

/-- Function `buildOptions`: the options applied in order to a bag with an empty
predictor map and every other field `nil`. -/
def buildOptions (opt : List Opt) : options :=
  applyOptions opt
    { predictors := some GoMap.empty, exitFunc := none, errorHandler := none, overrides := none }

/-! ## Predictor selection -/

/-- Function `tagPredictor`.  The argument is `none` for the `nil` interface value. -/
def tagPredictor (tag : Option kongTag)
    (predictors : Option (GoMap (Option complete.Predictor))) :
    Option complete.Predictor × Option Error :=
  match tag with
  | none => (none, none)
  | some tag =>
    if !tag.Has predictorTag then (none, none)
    else
      let predictors := match predictors with
        | none => GoMap.empty
        | some m => m
      let predictorName := tag.Get predictorTag
      match predictors.get? predictorName with
      | none => (none, some (Error.noPredictor predictorName))
      | some predictor => (predictor, none)

/-- Function `valuePredictor`.  `value.Tag` is a `*kong.Tag`; passed to `tagPredictor`
it is a non-nil interface value. -/
def valuePredictor (value : Option kong.Value)
    (predictors : Option (GoMap (Option complete.Predictor))) :
    Option complete.Predictor × Option Error :=
  match value with
  | none => (none, none)
  | some value =>
    match tagPredictor (some value.Tag) predictors with
    | (_, some err) => (none, some err)
    | (some predictor, none) => (some predictor, none)
    | (none, none) =>
      if value.IsBool then (some complete.Predictor.Nothing, none)
      else if value.Enum ≠ "" then (some (complete.Predictor.Set value.EnumMap.keys), none)
      else (some complete.Predictor.Something, none)

/-- Function `positionalPredictors`: slot `i` of the result is the predictor of slot `i`
of `args`; the first error ends the loop and drops the slice. -/
def positionalPredictors (args : List (Option kong.Value))
    (predictors : Option (GoMap (Option complete.Predictor))) :
    List (Option complete.Predictor) × Option Error :=
  match args with
  | [] => ([], none)
  | arg :: rest =>
    match valuePredictor arg predictors with
    | (_, some err) => ([], some err)
    | (p, none) =>
      match positionalPredictors rest predictors with
      | (_, some err) => ([], some err)
      | (ps, none) => (p :: ps, none)

/-- Function `flagPredictor`: the predictor of the flag's value. -/
def flagPredictor (flag : kong.Flag) (predictors : Option (GoMap (Option complete.Predictor))) :
    Option complete.Predictor × Option Error :=
  valuePredictor (some flag.Value) predictors

/-! ## Tree translation -/

/-- The conversion `string(flag.Short)` of a rune: the one-character string of
the code point, or of U+FFFD when the number is not a valid code point. -/
def runeString (r : Int) : String :=
  if 0 ≤ r ∧ (r < 0xD800 ∨ (0xDFFF < r ∧ r ≤ 0x10FFFF)) then
    String.singleton (Char.ofNat r.toNat)
  else String.singleton (Char.ofNat 0xFFFD)

/-- The second loop of `nodeCommand`, over `node.Flags`, threading `cmd.Flags`. -/
def flagsLoop (opts : options) :
    List (Option kong.Flag) → GoMap (Option complete.Predictor) →
      GoMap (Option complete.Predictor) × Option Error
  | [], flags => (flags, none)
  | none :: rest, flags => flagsLoop opts rest flags
  | some flag :: rest, flags =>
    if opts.Skip flag then flagsLoop opts rest flags
    else
      match flagPredictor flag opts.predictors with
      | (_, some err) => (flags, some err)
      | (predictor, none) =>
        let flags := flags.set flag.Name predictor
        let flags := if flag.Short ≠ 0 then flags.set (runeString flag.Short) predictor else flags
        flagsLoop opts rest flags

mutual

/-- The body of `nodeCommand` after its `nil` check: the translation of a
non-nil node. -/
def nodeCommandNode (node : kong.Node) (opts : options) :
    Option complete.Command × Option Error :=
  match node with
  | .mk _ _ nodeFlags positional children =>
    match childrenLoop children opts GoMap.empty with
    | (_, some err) => (none, some err)
    | (sub, none) =>
      match flagsLoop opts nodeFlags GoMap.empty with
      | (_, some err) => (none, some err)
      | (flags, none) =>
        match positionalPredictors positional opts.predictors with
        | (_, some err) => (none, some err)
        | (pps, none) =>
          let args := match pps with
            | [] => none
            | p :: _ => p
          (some (.mk (some sub) (some flags) args), none)

/-- The first loop of `nodeCommand`, over `node.Children`, threading `cmd.Sub`. -/
def childrenLoop (children : List (Option kong.Node)) (opts : options)
    (sub : GoMap complete.Command) : GoMap complete.Command × Option Error :=
  match children with
  | [] => (sub, none)
  | none :: rest => childrenLoop rest opts sub
  | some child :: rest =>
    if child.Hidden then childrenLoop rest opts sub
    else
      match nodeCommandNode child opts with
      | (_, some err) => (sub, some err)
      | (none, none) => childrenLoop rest opts sub
      | (some childCmd, none) => childrenLoop rest opts (sub.set child.Name childCmd)

end

/-- Function `nodeCommand`: `nil` for the `nil` node, the translation otherwise. -/
def nodeCommand (node : Option kong.Node) (opts : options) :
    Option complete.Command × Option Error :=
  match node with
  | none => (none, none)
  | some node => nodeCommandNode node opts

/-- What a call of `Command` does: it returns its pair of results, or it stops
in a run-time panic (dereference of a nil pointer). -/
inductive Outcome (α : Type) where
  | returned (a : α)
  | panicked

/-- Function `Command`, the exported entry point. -/
def Command (parser : Option kong.Kong) (opt : List Opt) :
    Outcome (complete.Command × Option Error) :=
  let opts := buildOptions opt
  match parser with
  | none => .returned (complete.Command.zero, none)
  | some parser =>
    match parser.Model with
    | none => .returned (complete.Command.zero, none)
    | some model =>
      match nodeCommand (some model.Node) opts with
      | (_, some err) => .returned (complete.Command.zero, some err)
      | (some command, none) => .returned (command, none)
      | (none, none) => .panicked

/-! ## Vocabulary of the statements -/

/-- The value carries a predictor tag whose name has no binding in the
predictor map (a `nil` map has no binding at all). -/
def Unresolvable (predictors : Option (GoMap (Option complete.Predictor))) (v : kong.Value) :
    Prop :=
  v.Tag.Has predictorTag = true ∧ GoMap.nilGet? predictors (v.Tag.Get predictorTag) = none

instance (predictors : Option (GoMap (Option complete.Predictor))) (v : kong.Value) :
    Decidable (Unresolvable predictors v) := by
  unfold Unresolvable
  infer_instance

/-- The value occurs somewhere in the tree: on a flag or in a positional slot
of the node or of any node below it, hidden or not. -/
inductive Occurs : kong.Node → kong.Value → Prop where
  | flag {node : kong.Node} {f : kong.Flag} : some f ∈ node.Flags → Occurs node f.Value
  | positional {node : kong.Node} {v : kong.Value} : some v ∈ node.Positional → Occurs node v
  | child {node c : kong.Node} {v : kong.Value} :
      some c ∈ node.Children → Occurs c v → Occurs node v

/-- The value is one that the translation of the node resolves: it sits on a
flag that `Skip` lets through or in a positional slot, of the node itself or of
a node reached from it through non-nil children that are not hidden. -/
inductive Resolved (opts : options) : kong.Node → kong.Value → Prop where
  | flag {node : kong.Node} {f : kong.Flag} :
      some f ∈ node.Flags → opts.Skip f = false → Resolved opts node f.Value
  | positional {node : kong.Node} {v : kong.Value} :
      some v ∈ node.Positional → Resolved opts node v
  | child {node c : kong.Node} {v : kong.Value} :
      some c ∈ node.Children → c.Hidden = false → Resolved opts c v → Resolved opts node v

/-- A tag without any key. -/
def noTag : kongTag := ⟨fun _ => false, fun _ => ""⟩

/-- A tag whose only key is `predictor`, with the given name as its value. -/
def namedTag (name : String) : kongTag :=
  ⟨fun k => k == predictorTag, fun k => if k == predictorTag then name else ""⟩

/-- The assignments `m[k] = v` for the pairs of a list, first to last. -/
def GoMap.setAll {V : Type} : List (String × V) → GoMap V → GoMap V
  | [], m => m
  | (k, v) :: rest, m => setAll rest (m.set k v)

/-- The value under which the last pair with key `k` of a list stands. -/
def lastBinding {V : Type} (k : String) : List (String × V) → Option V
  | [] => none
  | (k', v) :: rest =>
    match lastBinding k rest with
    | some w => some w
    | none => if k' = k then some v else none

/-- The keys under which a flag is registered: its long name and, when the
short rune is not zero, the string of the short rune. -/
def flagKeys (f : kong.Flag) : List String :=
  if f.Short ≠ 0 then [f.Name, runeString f.Short] else [f.Name]

/-- The registrations a list of flags stands for, in order: every non-nil flag
that is not skipped, under each of its keys, with the predictor selected for it. -/
def flagEntries (opts : options) : List (Option kong.Flag) →
    List (String × Option complete.Predictor)
  | [] => []
  | none :: rest => flagEntries opts rest
  | some f :: rest =>
    if opts.Skip f then flagEntries opts rest
    else (flagKeys f).map (fun k => (k, (flagPredictor f opts.predictors).1))
      ++ flagEntries opts rest

/-- The registrations a list of children stands for, in order: every non-nil
child that is not hidden, under its name, with its translation. -/
def childEntries (opts : options) : List (Option kong.Node) →
    List (String × complete.Command)
  | [] => []
  | none :: rest => childEntries opts rest
  | some c :: rest =>
    if c.Hidden then childEntries opts rest
    else
      match (nodeCommandNode c opts).1 with
      | none => childEntries opts rest
      | some cmd => (c.Name, cmd) :: childEntries opts rest

/-! ## Concrete inputs used by the statements -/

/-- A boolean value named `verbose` tagged `predictor:"p"`. -/
def exTaggedBool : kong.Value := ⟨"verbose", namedTag "p", true, "", GoMap.empty⟩

/-- An untagged boolean value that also declares an enum. -/
def exBoolEnum : kong.Value :=
  ⟨"verbose", noTag, true, "yes,no", ⟨[("yes", true), ("no", true)]⟩⟩

/-- An untagged enum value `mode` over `fast` and `slow`, ranged as `slow`, `fast`. -/
def exModeRev : kong.Value :=
  ⟨"mode", noTag, false, "fast,slow", ⟨[("slow", true), ("fast", true)]⟩⟩

/-- A free-form value `secret` tagged `predictor:"missing"`. -/
def exSecret : kong.Value := ⟨"secret", namedTag "missing", false, "", GoMap.empty⟩

/-- An untagged boolean value `verbose`. -/
def exVerbose : kong.Value := ⟨"verbose", noTag, true, "", GoMap.empty⟩

/-- A node with the visible flag `verbose` and the flag `secret`, hidden or not. -/
def exSecretNode (hidden : Bool) : kong.Node :=
  .mk "app" false [some ⟨exVerbose, 0, false⟩, some ⟨exSecret, 0, hidden⟩] [] []

/-- The node reached from `node` along a path of names of non-nil children
that are not hidden. -/
inductive VisibleAt : kong.Node → List String → kong.Node → Prop where
  | here (node : kong.Node) : VisibleAt node [] node
  | step {node c d : kong.Node} {path : List String} :
      some c ∈ node.Children → c.Hidden = false → VisibleAt c path d →
      VisibleAt node (c.Name :: path) d

/-- A command without flags, positionals or children. -/
def exLeaf (name : String) (hidden : Bool) : kong.Node := .mk name hidden [] [] []

/-- A node with two children of the same name, the first visible, the second
hidden. -/
def exTwins : kong.Node := .mk "app" false [] [] [some (exLeaf "a" false), some (exLeaf "a" true)]

/-- The options with the single override `v: false`. -/
def exHideV : options := buildOptions [WithFlagOverrides [⟨[("v", false)]⟩]]

/-- An untagged enum value `v` over `x` and `y`. -/
def exEnumV : kong.Value := ⟨"v", noTag, false, "x,y", ⟨[("x", true), ("y", true)]⟩⟩

/-- A node with the flag `--verbose`/`-v` followed by a flag whose long name
is `v`. -/
def exShortClash : kong.Node :=
  .mk "app" false [some ⟨exVerbose, 118, false⟩, some ⟨exEnumV, 0, false⟩] [] []

/-- A node with a flag whose long name is `v` followed by the flag
`--verbose`/`-v`. -/
def exLongClash : kong.Node :=
  .mk "app" false [some ⟨exEnumV, 0, false⟩, some ⟨exVerbose, 118, false⟩] [] []

/-- An untagged free-form value. -/
def exString (name : String) : kong.Value := ⟨name, noTag, false, "", GoMap.empty⟩

/-- The enum value `mode` over `fast` and `slow`, its map ranged in the given
order. -/
def exMode (order : List String) : kong.Value :=
  ⟨"mode", noTag, false, "fast,slow", ⟨order.map (fun k => (k, true))⟩⟩

/-- The command of the end-to-end example: the boolean flag `--verbose`/`-v`,
the enum flag `--mode` without a short name, and one positional string. -/
def exEndToEnd (order : List String) : kong.Node :=
  .mk "run" false [some ⟨exVerbose, 118, false⟩, some ⟨exMode order, 0, false⟩]
    [some (exString "file")] []

/-- A root whose visible child `a` has the hidden child `b`. -/
def exNested : kong.Node :=
  .mk "app" false [] [] [some (.mk "a" false [] [] [some (exLeaf "b" true)])]

/-- The translation of a command without flags, positionals or children. -/
def exLeafCmd : complete.Command := .mk (some GoMap.empty) (some GoMap.empty) none

/-- A node with the hidden flag `verbose` and the visible flag `mode`. -/
def exOverridden : kong.Node :=
  .mk "app" false [some ⟨exVerbose, 0, true⟩, some ⟨exMode ["fast", "slow"], 0, false⟩] [] []

/-- The options with the overrides `verbose: true` and `mode: false`. -/
def exShowHide : options :=
  buildOptions [WithFlagOverrides [⟨[("verbose", true), ("mode", false)]⟩]]

/-- A `WithPredictor` or a `WithPredictors` option, as the caller writes it. -/
inductive PredictorOption where
  | one (name : String) (predictor : Option complete.Predictor)
  | many (predictors : GoMap (Option complete.Predictor))

namespace PredictorOption

/-- The option function the call returns. -/
def toOpt : PredictorOption → Opt
  | .one name predictor => WithPredictor name predictor
  | .many predictors => WithPredictors predictors

/-- What the option supplies for a name: the predictor it names, if any. -/
def supplies (k : String) : PredictorOption → Option (Option complete.Predictor)
  | .one name predictor => if name = k then some predictor else none
  | .many predictors => predictors.get? k

/-- The map argument of the option is a Go map: its keys are distinct. -/
def WellFormed : PredictorOption → Prop
  | .one _ _ => True
  | .many predictors => predictors.keys.Nodup

/-- The bindings the option writes, in the order it writes them. -/
def bindings : PredictorOption → List (String × Option complete.Predictor)
  | .one name predictor => [(name, predictor)]
  | .many predictors => predictors.entries

end PredictorOption

/-- The binding the spec gives a name after a sequence of options: the
predictor of the last option in the sequence that supplied the name. -/
def lastSupplied (k : String) : List PredictorOption → Option (Option complete.Predictor)
  | [] => none
  | o :: rest =>
    match lastSupplied k rest with
    | some p => some p
    | none => o.supplies k

/-- The options of the example for `buildOptions`: `a` is named twice, `b`
twice. -/
def exPredictorOptions : List PredictorOption :=
  [.one "a" (some (.custom 1)),
    .many ⟨[("a", some (.custom 2)), ("b", some .Nothing)]⟩,
    .one "b" (some (.custom 3))]

/-! ## Registration -/

/-- An action of `Register` that can be observed from outside. -/
inductive Effect where
  | handler (id : Nat) (err : Error)
  | errorf (err : Error)
  | exit (id : Nat) (code : Int)
  | parserExit (code : Int)
  | complete (cmd : complete.Command) (name : String)

/-- How a run of `Register` ends: it returns before anything is done, it hands
control to the completion routine (which returns or ends the process itself),
a function it calls does not return, or it stops in a run-time panic. -/
inductive Ending where
  | returned
  | completed
  | exited
  | panicked
deriving DecidableEq, Repr

/-- A run of `Register`: the actions in the order they happen, and the ending. -/
structure Run where
  trace : List Effect
  ending : Ending

/-- The call `errHandler(err)`: the caller's handler when one is set, else
`parser.Errorf("error running command completion: %v", err)`, which returns.
The second component says whether the call returns. -/
def callErrHandler (opts : options) (err : Error) : Effect × Bool :=
  match opts.errorHandler with
  | none => (Effect.errorf err, true)
  | some h => (Effect.handler h.id err, h.returns)

/-- The call `exitFunc(code)`: the caller's function when one is set, else
`parser.Exit`.  Whether `parser.Exit` returns is a parameter. -/
def callExitFunc (opts : options) (parserExitReturns : Bool) (code : Int) : Effect × Bool :=
  match opts.exitFunc with
  | none => (Effect.parserExit code, parserExitReturns)
  | some x => (Effect.exit x.id code, x.returns)

/-- The statement `cmd.Complete(parser.Model.Name)`; reading `Name` through a
nil `Model` is a run-time panic. -/
def completeStep (parser : kong.Kong) (cmd : complete.Command) : Run :=
  match parser.Model with
  | none => ⟨[], Ending.panicked⟩
  | some model => ⟨[Effect.complete cmd model.Node.Name], Ending.completed⟩

/-- Function `Register`, as the run it produces.  `parser.Exit` is a function
field of `kong.Kong`; whether a call of it returns is `parserExitReturns`. -/
def Register (parser : Option kong.Kong) (parserExitReturns : Bool) (opt : List Opt) : Run :=
  match parser with
  | none => ⟨[], Ending.returned⟩
  | some p =>
    let opts := buildOptions opt
    match Command (some p) opt with
    | .panicked => ⟨[], Ending.panicked⟩
    | .returned (cmd, none) => completeStep p cmd
    | .returned (cmd, some err) =>
      let handled := callErrHandler opts err
      if handled.2 = false then ⟨[handled.1], Ending.exited⟩
      else
        let left := callExitFunc opts parserExitReturns 1
        if left.2 = false then ⟨[handled.1, left.1], Ending.exited⟩
        else
          let rest := completeStep p cmd
          ⟨handled.1 :: left.1 :: rest.trace, rest.ending⟩

/-! ## The order of resolution -/

/-- The non-nil positional slots, in declaration order. -/
def positionalValues : List (Option kong.Value) → List kong.Value
  | [] => []
  | none :: rest => positionalValues rest
  | some v :: rest => v :: positionalValues rest

/-- The values of the non-nil flags that are not skipped, in declaration order. -/
def flagValues (opts : options) : List (Option kong.Flag) → List kong.Value
  | [] => []
  | none :: rest => flagValues opts rest
  | some f :: rest =>
    if opts.Skip f then flagValues opts rest else f.Value :: flagValues opts rest

mutual

/-- The values in the order the specification gives for the traversal of a
node: those of its non-nil children that are not hidden, each child completely
and in declaration order, then its flags that are not skipped, then its
positional slots. -/
def resolvedValues (opts : options) : kong.Node → List kong.Value
  | .mk _ _ flags positional children =>
    resolvedValuesChildren opts children ++ flagValues opts flags ++ positionalValues positional

/-- The values of a list of children, in traversal order. -/
def resolvedValuesChildren (opts : options) : List (Option kong.Node) → List kong.Value
  | [] => []
  | none :: rest => resolvedValuesChildren opts rest
  | some c :: rest =>
    if c.Hidden then resolvedValuesChildren opts rest
    else resolvedValues opts c ++ resolvedValuesChildren opts rest

end

/-- The error `tagPredictor` reports for the first value of a list for which
it reports one. -/
def firstError (predictors : Option (GoMap (Option complete.Predictor))) :
    List kong.Value → Option Error
  | [] => none
  | v :: rest =>
    match (tagPredictor (some v.Tag) predictors).2 with
    | some err => some err
    | none => firstError predictors rest

/-! ## Calls of the option constructors -/

/-- A call of one of the five option constructors, as the caller writes it. -/
inductive OptionCall where
  | predictor (name : String) (predictor : Option complete.Predictor)
  | predictors (predictors : GoMap (Option complete.Predictor))
  | exitFunc (exitFunc : Option Callback)
  | errorHandler (handler : Option Callback)
  | flagOverrides (overrides : List (GoMap Bool))

namespace OptionCall

/-- The option function the call returns. -/
def toOpt : OptionCall → Opt
  | .predictor name p => WithPredictor name p
  | .predictors m => WithPredictors m
  | .exitFunc f => WithExitFunc f
  | .errorHandler h => WithErrorHandler h
  | .flagOverrides ms => WithFlagOverrides ms

/-- The call is a call of `WithFlagOverrides`. -/
def isFlagOverrides : OptionCall → Bool
  | .flagOverrides _ => true
  | _ => false

end OptionCall

/-- The value the specification gives a name in the merge of override maps:
that of the last map of the list that contains the name. -/
def lastOverride (k : String) : List (GoMap Bool) → Option Bool
  | [] => none
  | m :: rest =>
    match lastOverride k rest with
    | some b => some b
    | none => m.get? k

/-! ## Concrete inputs of the later statements -/

/-- The caller's exit function of the examples, which returns. -/
def exReturningExit : Callback := ⟨1, true⟩

/-- The caller's exit function of the examples, which ends the process. -/
def exFinalExit : Callback := ⟨1, false⟩

/-- The caller's error handler of the examples, which returns. -/
def exHandler : Callback := ⟨2, true⟩

/-- A root with the hidden child `secret` and the visible child `open`. -/
def exHiddenCmd : kong.Node :=
  .mk "app" false [] [] [some (exLeaf "secret" true), some (exLeaf "open" false)]

/-- The options with the overrides `secret: true` and `open: false`. -/
def exCmdOverrides : options :=
  buildOptions [WithFlagOverrides [⟨[("secret", true), ("open", false)]⟩]]

/-- A free-form value tagged with a predictor name. -/
def exTagged (name tag : String) : kong.Value := ⟨name, namedTag tag, false, "", GoMap.empty⟩

/-- A root whose visible child has a positional tagged `first`, whose own flag
is tagged `second` and whose own positional is tagged `third`. -/
def exThreeErrors : kong.Node :=
  .mk "app" false [some ⟨exTagged "flag" "second", 0, false⟩] [some (exTagged "pos" "third")]
    [some (.mk "sub" false [] [some (exTagged "inner" "first")] [])]

/-- A root with the children `a`, hidden `b`, and `a` again, the second `a`
with a positional slot. -/
def exSameName : kong.Node :=
  .mk "app" false [] []
    [some (exLeaf "a" false), some (exLeaf "b" true),
      some (.mk "a" false [] [some (exString "file")] [])]

/-- The calls of the example for the overrides: two calls of
`WithFlagOverrides` with a call of `WithPredictor` between and after them. -/
def exOverrideCalls : List OptionCall :=
  [.flagOverrides [⟨[("verbose", false)]⟩],
    .predictor "p" (some (.custom 1)),
    .flagOverrides [⟨[("mode", true), ("v", true)]⟩, ⟨[("mode", false)]⟩],
    .exitFunc (some exFinalExit)]

/-! ## Maps: reads after writes -/

namespace GoMap

variable {V : Type}

theorem lookupEntries_setEntries (k k' : String) (v : V) (l : List (String × V)) :
    lookupEntries k' (setEntries k v l) = if k = k' then some v else lookupEntries k' l := by
  induction l with
  | nil => simp [setEntries, lookupEntries]
  | cons hd tl ih =>
    obtain ⟨a, b⟩ := hd
    by_cases h : a = k
    · subst h
      by_cases h' : a = k' <;> simp [setEntries, lookupEntries, h']
    · by_cases h' : a = k'
      · subst h'
        have : ¬ k = a := fun e => h e.symm
        simp [setEntries, lookupEntries, h, this]
      · simp [setEntries, lookupEntries, h, h', ih]

theorem get?_set (m : GoMap V) (k k' : String) (v : V) :
    (m.set k v).get? k' = if k = k' then some v else m.get? k' :=
  lookupEntries_setEntries k k' v m.entries

theorem get?_set_self (m : GoMap V) (k : String) (v : V) : (m.set k v).get? k = some v := by
  simp [get?_set]

theorem get?_set_of_ne (m : GoMap V) {k k' : String} (v : V) (h : k ≠ k') :
    (m.set k v).get? k' = m.get? k' := by
  simp [get?_set, h]

theorem get?_empty (k : String) : (empty : GoMap V).get? k = none := rfl

theorem lookupEntries_eq_none_iff (k : String) (l : List (String × V)) :
    lookupEntries k l = none ↔ k ∉ l.map Prod.fst := by
  induction l with
  | nil => simp [lookupEntries]
  | cons hd tl ih =>
    obtain ⟨a, b⟩ := hd
    by_cases h : a = k
    · simp [lookupEntries, h]
    · have : ¬ k = a := fun e => h e.symm
      simp [lookupEntries, h, ih, this]

theorem get?_eq_none_iff (m : GoMap V) (k : String) : m.get? k = none ↔ k ∉ m.keys :=
  lookupEntries_eq_none_iff k m.entries

theorem mem_keys_iff (m : GoMap V) (k : String) : k ∈ m.keys ↔ ∃ v, m.get? k = some v := by
  rw [← not_iff_not, ← get?_eq_none_iff]
  cases m.get? k <;> simp

theorem mem_keys_setEntries (k x : String) (v : V) (l : List (String × V)) :
    x ∈ (setEntries k v l).map Prod.fst ↔ x = k ∨ x ∈ l.map Prod.fst := by
  have h1 := lookupEntries_eq_none_iff x (setEntries k v l)
  have h2 := lookupEntries_eq_none_iff x l
  rw [lookupEntries_setEntries] at h1
  by_cases h : k = x
  · subst h
    simp only [if_true] at h1
    constructor
    · intro _; exact Or.inl rfl
    · intro _; by_contra hc; exact absurd (h1.mpr hc) (by simp)
  · simp only [if_neg h] at h1
    have hx : ¬ x = k := fun e => h e.symm
    constructor
    · intro hm; right; by_contra hc; exact (h1.mp (h2.mpr hc)) hm
    · rintro (e | hm)
      · exact absurd e hx
      · by_contra hc; exact (h2.mp (h1.mpr hc)) hm

theorem mem_keys_set (m : GoMap V) (k x : String) (v : V) :
    x ∈ (m.set k v).keys ↔ x = k ∨ x ∈ m.keys :=
  mem_keys_setEntries k x v m.entries

theorem nodup_setEntries (k : String) (v : V) (l : List (String × V))
    (h : (l.map Prod.fst).Nodup) : ((setEntries k v l).map Prod.fst).Nodup := by
  induction l with
  | nil => simp [setEntries]
  | cons hd tl ih =>
    obtain ⟨a, b⟩ := hd
    simp only [List.map_cons, List.nodup_cons] at h
    by_cases e : a = k
    · subst e
      simpa [setEntries] using h
    · simp only [setEntries, if_neg e, List.map_cons, List.nodup_cons]
      refine ⟨?_, ih h.2⟩
      rw [mem_keys_setEntries]
      rintro (e' | hm)
      · exact e e'
      · exact h.1 hm

theorem nodup_keys_set (m : GoMap V) (k : String) (v : V) (h : m.keys.Nodup) :
    (m.set k v).keys.Nodup :=
  nodup_setEntries k v m.entries h

theorem nodup_keys_empty : (empty : GoMap V).keys.Nodup := by
  simp [empty, keys]

end GoMap

/-! ## Predictor selection: case analysis -/

theorem tagPredictor_some (tag : kongTag)
    (predictors : Option (GoMap (Option complete.Predictor))) :
    tagPredictor (some tag) predictors =
      if tag.Has predictorTag = true then
        match GoMap.nilGet? predictors (tag.Get predictorTag) with
        | none => (none, some (Error.noPredictor (tag.Get predictorTag)))
        | some p => (p, none)
      else (none, none) := by
  cases predictors <;> cases h : tag.Has predictorTag <;>
    simp [tagPredictor, h, GoMap.nilGet?, GoMap.get?, GoMap.empty, GoMap.lookupEntries]

/-- The predictor chosen from the kind of the value alone (the `switch` of
`valuePredictor`). -/
theorem valuePredictor_untagged (v : kong.Value)
    (predictors : Option (GoMap (Option complete.Predictor)))
    (h : v.Tag.Has predictorTag = false) :
    valuePredictor (some v) predictors =
      if v.IsBool = true then (some complete.Predictor.Nothing, none)
      else if v.Enum ≠ "" then (some (complete.Predictor.Set v.EnumMap.keys), none)
      else (some complete.Predictor.Something, none) := by
  simp only [valuePredictor, tagPredictor_some, h]
  simp

theorem valuePredictor_unresolvable (v : kong.Value)
    (predictors : Option (GoMap (Option complete.Predictor)))
    (h : Unresolvable predictors v) :
    valuePredictor (some v) predictors =
      (none, some (Error.noPredictor (v.Tag.Get predictorTag))) := by
  obtain ⟨h1, h2⟩ := h
  simp [valuePredictor, tagPredictor_some, h1, h2]

theorem valuePredictor_bound (v : kong.Value)
    (predictors : Option (GoMap (Option complete.Predictor))) (p : complete.Predictor)
    (h1 : v.Tag.Has predictorTag = true)
    (h2 : GoMap.nilGet? predictors (v.Tag.Get predictorTag) = some (some p)) :
    valuePredictor (some v) predictors = (some p, none) := by
  simp [valuePredictor, tagPredictor_some, h1, h2]

theorem valuePredictor_bound_nil (v : kong.Value)
    (predictors : Option (GoMap (Option complete.Predictor)))
    (h1 : v.Tag.Has predictorTag = true)
    (h2 : GoMap.nilGet? predictors (v.Tag.Get predictorTag) = some none) :
    valuePredictor (some v) predictors =
      if v.IsBool = true then (some complete.Predictor.Nothing, none)
      else if v.Enum ≠ "" then (some (complete.Predictor.Set v.EnumMap.keys), none)
      else (some complete.Predictor.Something, none) := by
  simp only [valuePredictor, tagPredictor_some, h1, h2]
  simp

/-- A value whose resolution reports an error is unresolvable, and the error
names its tag. -/
theorem valuePredictor_error (v : kong.Value)
    (predictors : Option (GoMap (Option complete.Predictor))) (e : Error)
    (h : (valuePredictor (some v) predictors).2 = some e) :
    Unresolvable predictors v ∧ e = Error.noPredictor (v.Tag.Get predictorTag) := by
  cases h1 : v.Tag.Has predictorTag
  · rw [valuePredictor_untagged v predictors h1] at h
    split_ifs at h
  · cases h2 : GoMap.nilGet? predictors (v.Tag.Get predictorTag) with
    | none =>
      rw [valuePredictor_unresolvable v predictors ⟨h1, h2⟩] at h
      simp only [Option.some.injEq] at h
      exact ⟨⟨h1, h2⟩, h.symm⟩
    | some p =>
      cases p with
      | none =>
        rw [valuePredictor_bound_nil v predictors h1 h2] at h
        split_ifs at h
      | some p =>
        rw [valuePredictor_bound v predictors p h1 h2] at h
        simp at h

/-- Every result of `valuePredictor` is `(p, nil)` or `(nil, err)`. -/
theorem valuePredictor_shape (value : Option kong.Value)
    (predictors : Option (GoMap (Option complete.Predictor))) :
    (valuePredictor value predictors).2 = none ∨
      ∃ e, valuePredictor value predictors = (none, some e) := by
  cases value with
  | none => left; rfl
  | some v =>
    cases h1 : v.Tag.Has predictorTag
    · left
      rw [valuePredictor_untagged v predictors h1]
      split_ifs <;> rfl
    · cases h2 : GoMap.nilGet? predictors (v.Tag.Get predictorTag) with
      | none => right; exact ⟨_, valuePredictor_unresolvable v predictors ⟨h1, h2⟩⟩
      | some p =>
        left
        cases p with
        | none =>
          rw [valuePredictor_bound_nil v predictors h1 h2]
          split_ifs <;> rfl
        | some p => rw [valuePredictor_bound v predictors p h1 h2]

/-! ## Claims C2 to C4: the selection policy -/

/-- Claim C2, as stated, fails when the name is bound to the `nil` predictor:
for the boolean value tagged `predictor:"p"` and the map built by
`WithPredictor("p", nil)`, the name is a key of the map, the predictor stored
under it is `nil`, and `valuePredictor` returns `predict.Nothing` instead. -/
theorem valuePredictor_nil_override_counterexample :
    exTaggedBool.Tag.Has predictorTag = true ∧
      GoMap.nilGet? (buildOptions [WithPredictor "p" none]).predictors
        (exTaggedBool.Tag.Get predictorTag) = some none ∧
      valuePredictor (some exTaggedBool) (buildOptions [WithPredictor "p" none]).predictors =
        (some complete.Predictor.Nothing, none) ∧
      (valuePredictor (some exTaggedBool) (buildOptions [WithPredictor "p" none]).predictors).1
        ≠ none := by
  refine ⟨rfl, rfl, rfl, ?_⟩
  decide

/-- Claim C2 (amended): for every non-nil value that carries a predictor tag
whose name is bound in the predictor map to a non-nil predictor,
`valuePredictor` returns exactly that predictor and no error, whatever the
kind of the value (boolean, enum or free-form); the same holds for
`flagPredictor` on a flag with that value. -/
theorem valuePredictor_tag_override (v : kong.Value)
    (predictors : Option (GoMap (Option complete.Predictor))) (p : complete.Predictor)
    (hTag : v.Tag.Has predictorTag = true)
    (hKey : GoMap.nilGet? predictors (v.Tag.Get predictorTag) = some (some p)) :
    valuePredictor (some v) predictors = (some p, none) ∧
      ∀ f : kong.Flag, f.Value = v → flagPredictor f predictors = (some p, none) := by
  refine ⟨valuePredictor_bound v predictors p hTag hKey, ?_⟩
  intro f hf
  rw [flagPredictor, hf]
  exact valuePredictor_bound v predictors p hTag hKey

/-- Witness of claim C2 (amended): a boolean value tagged `predictor:"p"` with
`p` bound to a caller's predictor. -/
theorem valuePredictor_tag_override_witness :
    valuePredictor (some exTaggedBool)
        (buildOptions [WithPredictor "p" (some (.custom 7))]).predictors =
      (some (.custom 7), none) ∧
      ∀ f : kong.Flag, f.Value = exTaggedBool →
        flagPredictor f (buildOptions [WithPredictor "p" (some (.custom 7))]).predictors =
          (some (.custom 7), none) :=
  valuePredictor_tag_override exTaggedBool _ (.custom 7) rfl rfl

/-- Claim C3: for every boolean-typed value without a predictor tag, be it a
positional or the value of a flag, `valuePredictor` returns `predict.Nothing`
and no error, also when the value declares an enum, and `predict.Nothing`
offers no candidate for any prefix. -/
theorem valuePredictor_bool (v : kong.Value)
    (predictors : Option (GoMap (Option complete.Predictor)))
    (hTag : v.Tag.Has predictorTag = false) (hBool : v.IsBool = true) :
    valuePredictor (some v) predictors = (some complete.Predictor.Nothing, none) ∧
      (∀ f : kong.Flag, f.Value = v →
        flagPredictor f predictors = (some complete.Predictor.Nothing, none)) ∧
      ∀ (something : String → List String) (user : Nat → String → List String) (pre : String),
        complete.Predictor.Nothing.Predict something user pre = [] := by
  have h : valuePredictor (some v) predictors = (some complete.Predictor.Nothing, none) := by
    rw [valuePredictor_untagged v predictors hTag, if_pos hBool]
  refine ⟨h, ?_, ?_⟩
  · intro f hf
    rw [flagPredictor, hf]
    exact h
  · intro something user pre
    rfl

/-- Witness of claim C3: an untagged boolean value that declares an enum. -/
theorem valuePredictor_bool_witness :
    exBoolEnum.Enum ≠ "" ∧
      valuePredictor (some exBoolEnum) none = (some complete.Predictor.Nothing, none) ∧
      (∀ f : kong.Flag, f.Value = exBoolEnum →
        flagPredictor f none = (some complete.Predictor.Nothing, none)) ∧
      ∀ (something : String → List String) (user : Nat → String → List String) (pre : String),
        complete.Predictor.Nothing.Predict something user pre = [] :=
  ⟨by decide, valuePredictor_bool exBoolEnum none rfl rfl⟩

/-- Claim C4: for every value that is not boolean, declares a non-empty enum
and has no predictor tag, whose enum map has the duplicate-free key list
`members` visited by `range` in any order, `valuePredictor` returns no error
and a `predict.Set` whose values are a duplicate-free rearrangement of
`members`, so that for every prefix the candidates are exactly the members. -/
theorem valuePredictor_enum (v : kong.Value)
    (predictors : Option (GoMap (Option complete.Predictor))) (members : List String)
    (hTag : v.Tag.Has predictorTag = false) (hBool : v.IsBool = false) (hEnum : v.Enum ≠ "")
    (hOrder : v.EnumMap.keys.Perm members) (hMap : members.Nodup) :
    ∃ vals : List String,
      valuePredictor (some v) predictors = (some (complete.Predictor.Set vals), none) ∧
      vals.Perm members ∧ vals.Nodup ∧
      ∀ (something : String → List String) (user : Nat → String → List String)
        (pre s : String),
        s ∈ (complete.Predictor.Set vals).Predict something user pre ↔ s ∈ members := by
  refine ⟨v.EnumMap.keys, ?_, hOrder, hOrder.nodup_iff.mpr hMap, ?_⟩
  · rw [valuePredictor_untagged v predictors hTag]
    simp [hBool, hEnum]
  · intro something user pre s
    exact hOrder.mem_iff

/-- Witness of claim C4: the enum `fast,slow` ranged in the order `slow`,
`fast`. -/
theorem valuePredictor_enum_witness :
    ∃ vals : List String,
      valuePredictor (some exModeRev) none = (some (complete.Predictor.Set vals), none) ∧
      vals.Perm ["fast", "slow"] ∧ vals.Nodup ∧
      ∀ (something : String → List String) (user : Nat → String → List String)
        (pre s : String),
        s ∈ (complete.Predictor.Set vals).Predict something user pre ↔
          s ∈ ["fast", "slow"] :=
  valuePredictor_enum exModeRev none ["fast", "slow"] rfl rfl (by decide)
    (List.Perm.swap "fast" "slow" []) (by decide)

/-! ## Maps: a run of assignments -/

namespace GoMap

variable {V : Type}

theorem get?_setAll (l : List (String × V)) (m : GoMap V) (k : String) :
    (setAll l m).get? k =
      match lastBinding k l with
      | some v => some v
      | none => m.get? k := by
  induction l generalizing m with
  | nil => simp [setAll, lastBinding]
  | cons hd tl ih =>
    obtain ⟨a, b⟩ := hd
    rw [setAll, ih, lastBinding]
    cases lastBinding k tl with
    | some w => rfl
    | none =>
      by_cases h : a = k <;> simp [get?_set, h]

theorem mem_keys_setAll (l : List (String × V)) (m : GoMap V) (x : String) :
    x ∈ (setAll l m).keys ↔ x ∈ l.map Prod.fst ∨ x ∈ m.keys := by
  induction l generalizing m with
  | nil => simp [setAll]
  | cons hd tl ih =>
    obtain ⟨a, b⟩ := hd
    rw [setAll, ih, mem_keys_set]
    simp only [List.map_cons, List.mem_cons]
    tauto

theorem nodup_keys_setAll (l : List (String × V)) (m : GoMap V) (h : m.keys.Nodup) :
    (setAll l m).keys.Nodup := by
  induction l generalizing m with
  | nil => simpa [setAll] using h
  | cons hd tl ih =>
    obtain ⟨a, b⟩ := hd
    rw [setAll]
    exact ih _ (nodup_keys_set m a b h)

end GoMap

theorem lastBinding_eq_none_iff {V : Type} (k : String) (l : List (String × V)) :
    lastBinding k l = none ↔ k ∉ l.map Prod.fst := by
  induction l with
  | nil => simp [lastBinding]
  | cons hd tl ih =>
    obtain ⟨a, b⟩ := hd
    rw [lastBinding]
    cases h : lastBinding k tl with
    | some w =>
      have : k ∈ tl.map Prod.fst := by
        by_contra hc
        rw [ih.mpr hc] at h
        cases h
      simp only [List.map_cons, List.mem_cons, not_or]
      constructor
      · intro h'; cases h'
      · intro h'; exact absurd this h'.2
    | none =>
      have hk := ih.mp h
      by_cases e : a = k
      · simp [e]
      · have : ¬ k = a := fun e' => e e'.symm
        simp only [List.map_cons, List.mem_cons, not_or, if_neg e, true_iff]
        exact ⟨this, hk⟩

theorem lastBinding_append {V : Type} (k : String) (l₁ l₂ : List (String × V)) :
    lastBinding k (l₁ ++ l₂) =
      match lastBinding k l₂ with
      | some w => some w
      | none => lastBinding k l₁ := by
  induction l₁ with
  | nil => cases h : lastBinding k l₂ <;> simp [lastBinding, h]
  | cons hd tl ih =>
    obtain ⟨a, b⟩ := hd
    rw [List.cons_append, lastBinding, ih, lastBinding]
    cases lastBinding k l₂ with
    | some w => rfl
    | none => rfl

/-! ## The loops of the translation -/

theorem flagsLoop_ok (opts : options) (fl : List (Option kong.Flag))
    (init : GoMap (Option complete.Predictor)) (h : (flagsLoop opts fl init).2 = none) :
    (flagsLoop opts fl init).1 = GoMap.setAll (flagEntries opts fl) init := by
  induction fl generalizing init with
  | nil => simp [flagsLoop, flagEntries, GoMap.setAll]
  | cons hd tl ih =>
    cases hd with
    | none =>
      rw [flagsLoop] at h ⊢
      rw [flagEntries]
      exact ih init h
    | some f =>
      rw [flagsLoop] at h ⊢
      rw [flagEntries]
      by_cases hs : opts.Skip f = true
      · rw [if_pos hs] at h ⊢
        rw [if_pos hs]
        exact ih init h
      · rw [if_neg hs] at h ⊢
        rw [if_neg hs]
        rcases hp : flagPredictor f opts.predictors with ⟨p, _ | e⟩
        · rw [hp] at h
          simp only at h ⊢
          rw [ih _ h]
          by_cases hshort : f.Short = 0
          · simp [flagKeys, hshort, GoMap.setAll]
          · simp [flagKeys, hshort, GoMap.setAll]
        · rw [hp] at h
          simp at h

theorem flagsLoop_error (opts : options) (fl : List (Option kong.Flag))
    (init : GoMap (Option complete.Predictor)) (e : Error)
    (h : (flagsLoop opts fl init).2 = some e) :
    ∃ f, some f ∈ fl ∧ opts.Skip f = false ∧ Unresolvable opts.predictors f.Value ∧
      e = Error.noPredictor (f.Value.Tag.Get predictorTag) := by
  induction fl generalizing init with
  | nil => simp [flagsLoop] at h
  | cons hd tl ih =>
    cases hd with
    | none =>
      rw [flagsLoop] at h
      obtain ⟨f, hf, hrest⟩ := ih init h
      exact ⟨f, List.mem_cons_of_mem _ hf, hrest⟩
    | some f =>
      rw [flagsLoop] at h
      by_cases hs : opts.Skip f = true
      · rw [if_pos hs] at h
        obtain ⟨g, hg, hrest⟩ := ih init h
        exact ⟨g, List.mem_cons_of_mem _ hg, hrest⟩
      · rw [if_neg hs] at h
        rcases hp : flagPredictor f opts.predictors with ⟨p, _ | e'⟩
        · rw [hp] at h
          simp only at h
          obtain ⟨g, hg, hrest⟩ := ih _ h
          exact ⟨g, List.mem_cons_of_mem _ hg, hrest⟩
        · rw [hp] at h
          simp only [Option.some.injEq] at h
          subst h
          have := valuePredictor_error f.Value opts.predictors e' (by
            rw [flagPredictor] at hp
            rw [hp])
          exact ⟨f, List.mem_cons_self _ _, by simpa using hs, this.1, this.2⟩

theorem flagsLoop_error_of (opts : options) (fl : List (Option kong.Flag))
    (init : GoMap (Option complete.Predictor)) (f : kong.Flag) (hf : some f ∈ fl)
    (hs : opts.Skip f = false) (hu : Unresolvable opts.predictors f.Value) :
    ∃ e, (flagsLoop opts fl init).2 = some e := by
  induction fl generalizing init with
  | nil => simp at hf
  | cons hd tl ih =>
    cases hd with
    | none =>
      rw [flagsLoop]
      exact ih init (by simpa using hf)
    | some g =>
      rw [flagsLoop]
      by_cases hsg : opts.Skip g = true
      · rw [if_pos hsg]
        refine ih init ?_
        rcases List.mem_cons.mp hf with e | h'
        · cases e
          rw [hs] at hsg
          cases hsg
        · exact h'
      · rw [if_neg hsg]
        rcases hp : flagPredictor g opts.predictors with ⟨p, _ | e'⟩
        · simp only
          refine ih _ ?_
          rcases List.mem_cons.mp hf with e | h'
          · cases e
            rw [flagPredictor, valuePredictor_unresolvable _ _ hu] at hp
            cases hp
          · exact h'
        · exact ⟨e', rfl⟩

theorem positionalPredictors_ok (args : List (Option kong.Value))
    (predictors : Option (GoMap (Option complete.Predictor)))
    (h : (positionalPredictors args predictors).2 = none) :
    (positionalPredictors args predictors).1 =
      args.map (fun a => (valuePredictor a predictors).1) := by
  induction args with
  | nil => simp [positionalPredictors]
  | cons hd tl ih =>
    rw [positionalPredictors] at h ⊢
    rcases hp : valuePredictor hd predictors with ⟨p, _ | e⟩
    · rw [hp] at h
      simp only at h ⊢
      rcases hq : positionalPredictors tl predictors with ⟨ps, _ | e⟩
      · rw [hq] at ih
        simp only [List.map_cons]
        rw [← ih rfl, hp]
      · rw [hq] at h
        simp at h
    · rw [hp] at h
      simp at h

theorem positionalPredictors_error (args : List (Option kong.Value))
    (predictors : Option (GoMap (Option complete.Predictor))) (e : Error)
    (h : (positionalPredictors args predictors).2 = some e) :
    ∃ v, some v ∈ args ∧ Unresolvable predictors v ∧
      e = Error.noPredictor (v.Tag.Get predictorTag) := by
  induction args with
  | nil => simp [positionalPredictors] at h
  | cons hd tl ih =>
    rw [positionalPredictors] at h
    rcases hp : valuePredictor hd predictors with ⟨p, _ | e'⟩
    · rw [hp] at h
      simp only at h
      rcases hq : positionalPredictors tl predictors with ⟨ps, _ | e''⟩
      · rw [hq] at h
        simp at h
      · rw [hq] at h ih
        simp only [Option.some.injEq] at h
        obtain ⟨v, hv, hrest⟩ := ih (by rw [h])
        exact ⟨v, List.mem_cons_of_mem _ hv, hrest⟩
    · rw [hp] at h
      simp only [Option.some.injEq] at h
      subst h
      cases hd with
      | none => simp [valuePredictor] at hp
      | some v =>
        have := valuePredictor_error v predictors e' (by rw [hp])
        exact ⟨v, List.mem_cons_self _ _, this.1, this.2⟩

theorem positionalPredictors_error_of (args : List (Option kong.Value))
    (predictors : Option (GoMap (Option complete.Predictor))) (v : kong.Value)
    (hv : some v ∈ args) (hu : Unresolvable predictors v) :
    ∃ e, (positionalPredictors args predictors).2 = some e := by
  induction args with
  | nil => simp at hv
  | cons hd tl ih =>
    rw [positionalPredictors]
    rcases hp : valuePredictor hd predictors with ⟨p, _ | e'⟩
    · simp only
      have hmem : some v ∈ tl := by
        rcases List.mem_cons.mp hv with e | h'
        · subst e
          rw [valuePredictor_unresolvable _ _ hu] at hp
          cases hp
        · exact h'
      obtain ⟨e, he⟩ := ih hmem
      rcases hq : positionalPredictors tl predictors with ⟨ps, _ | e''⟩
      · rw [hq] at he
        cases he
      · exact ⟨e'', rfl⟩
    · exact ⟨e', rfl⟩

theorem childrenLoop_ok (opts : options) (ch : List (Option kong.Node))
    (init : GoMap complete.Command) (h : (childrenLoop ch opts init).2 = none) :
    (childrenLoop ch opts init).1 = GoMap.setAll (childEntries opts ch) init := by
  induction ch generalizing init with
  | nil => simp [childrenLoop, childEntries, GoMap.setAll]
  | cons hd tl ih =>
    cases hd with
    | none =>
      rw [childrenLoop] at h ⊢
      rw [childEntries]
      exact ih init h
    | some c =>
      rw [childrenLoop] at h ⊢
      rw [childEntries]
      by_cases hh : c.Hidden = true
      · rw [if_pos hh] at h ⊢
        rw [if_pos hh]
        exact ih init h
      · rw [if_neg hh] at h ⊢
        rw [if_neg hh]
        rcases hn : nodeCommandNode c opts with ⟨_ | cmd, _ | e⟩
        · rw [hn] at h
          simp only at h ⊢
          exact ih init h
        · rw [hn] at h
          simp at h
        · rw [hn] at h
          simp only at h ⊢
          rw [ih _ h, GoMap.setAll]
        · rw [hn] at h
          simp at h

theorem nodeCommandNode_eq (node : kong.Node) (opts : options) :
    nodeCommandNode node opts =
      match childrenLoop node.Children opts GoMap.empty with
      | (_, some err) => (none, some err)
      | (sub, none) =>
        match flagsLoop opts node.Flags GoMap.empty with
        | (_, some err) => (none, some err)
        | (flags, none) =>
          match positionalPredictors node.Positional opts.predictors with
          | (_, some err) => (none, some err)
          | (pps, none) =>
            (some (.mk (some sub) (some flags) (match pps with
              | [] => none
              | p :: _ => p)), none) := by
  cases node
  rw [nodeCommandNode]
  rfl

theorem nodeCommandNode_shape (node : kong.Node) (opts : options) :
    (∃ e, nodeCommandNode node opts = (none, some e)) ∨
      ∃ cmd, nodeCommandNode node opts = (some cmd, none) := by
  rw [nodeCommandNode_eq]
  rcases childrenLoop node.Children opts GoMap.empty with ⟨sub, _ | e⟩
  · rcases flagsLoop opts node.Flags GoMap.empty with ⟨flags, _ | e⟩
    · rcases positionalPredictors node.Positional opts.predictors with ⟨pps, _ | e⟩
      · exact Or.inr ⟨_, rfl⟩
      · exact Or.inl ⟨e, rfl⟩
    · exact Or.inl ⟨e, rfl⟩
  · exact Or.inl ⟨e, rfl⟩

theorem nodeCommandNode_error_cases (node : kong.Node) (opts : options) (e : Error)
    (h : (nodeCommandNode node opts).2 = some e) :
    (childrenLoop node.Children opts GoMap.empty).2 = some e ∨
      (flagsLoop opts node.Flags GoMap.empty).2 = some e ∨
      (positionalPredictors node.Positional opts.predictors).2 = some e := by
  rw [nodeCommandNode_eq] at h
  rcases hc : childrenLoop node.Children opts GoMap.empty with ⟨sub, _ | e₁⟩
  · rw [hc] at h
    rcases hf : flagsLoop opts node.Flags GoMap.empty with ⟨flags, _ | e₂⟩
    · rw [hf] at h
      rcases hp : positionalPredictors node.Positional opts.predictors with ⟨pps, _ | e₃⟩
      · rw [hp] at h
        simp at h
      · rw [hp] at h
        exact Or.inr (Or.inr h)
    · rw [hf] at h
      exact Or.inr (Or.inl h)
  · rw [hc] at h
    exact Or.inl h

theorem nodeCommandNode_fails_of (node : kong.Node) (opts : options)
    (h : (childrenLoop node.Children opts GoMap.empty).2 ≠ none ∨
      (flagsLoop opts node.Flags GoMap.empty).2 ≠ none ∨
      (positionalPredictors node.Positional opts.predictors).2 ≠ none) :
    ∃ e, nodeCommandNode node opts = (none, some e) := by
  rcases nodeCommandNode_shape node opts with he | ⟨cmd, hc⟩
  · exact he
  · exfalso
    rw [nodeCommandNode_eq] at hc
    rcases h1 : childrenLoop node.Children opts GoMap.empty with ⟨sub, _ | e₁⟩
    · rw [h1] at hc h
      rcases h2 : flagsLoop opts node.Flags GoMap.empty with ⟨flags, _ | e₂⟩
      · rw [h2] at hc h
        rcases h3 : positionalPredictors node.Positional opts.predictors with ⟨pps, _ | e₃⟩
        · rw [h3] at h
          simp at h
        · rw [h3] at hc
          simp at hc
      · rw [h2] at hc
        simp at hc
    · rw [h1] at hc
      simp at hc

/-- What a successful translation of a node consists of. -/
theorem nodeCommandNode_success (node : kong.Node) (opts : options) (cmd : complete.Command)
    (h : nodeCommandNode node opts = (some cmd, none)) :
    cmd.Sub = some (GoMap.setAll (childEntries opts node.Children) GoMap.empty) ∧
      cmd.Flags = some (GoMap.setAll (flagEntries opts node.Flags) GoMap.empty) ∧
      cmd.Args = (match node.Positional with
        | [] => none
        | a :: _ => (valuePredictor a opts.predictors).1) ∧
      (childrenLoop node.Children opts GoMap.empty).2 = none ∧
      (flagsLoop opts node.Flags GoMap.empty).2 = none ∧
      (positionalPredictors node.Positional opts.predictors).2 = none := by
  rw [nodeCommandNode_eq] at h
  rcases h1 : childrenLoop node.Children opts GoMap.empty with ⟨sub, _ | e₁⟩
  · rcases h2 : flagsLoop opts node.Flags GoMap.empty with ⟨flags, _ | e₂⟩
    · rcases h3 : positionalPredictors node.Positional opts.predictors with ⟨pps, _ | e₃⟩
      · rw [h1, h2, h3] at h
        simp only [Prod.mk.injEq, Option.some.injEq, and_true] at h
        subst h
        have k1 := childrenLoop_ok opts node.Children GoMap.empty (by rw [h1])
        have k2 := flagsLoop_ok opts node.Flags GoMap.empty (by rw [h2])
        have k3 := positionalPredictors_ok node.Positional opts.predictors (by rw [h3])
        rw [h1] at k1
        rw [h2] at k2
        rw [h3] at k3
        simp only at k1 k2 k3
        subst k1 k2 k3
        refine ⟨rfl, rfl, ?_, rfl, rfl, rfl⟩
        cases node.Positional <;> rfl
      · rw [h1, h2, h3] at h
        simp at h
    · rw [h1, h2] at h
      simp at h
  · rw [h1] at h
    simp at h

theorem childrenLoop_error (opts : options) (ch : List (Option kong.Node))
    (init : GoMap complete.Command) (e : Error) (h : (childrenLoop ch opts init).2 = some e) :
    ∃ c, some c ∈ ch ∧ c.Hidden = false ∧ (nodeCommandNode c opts).2 = some e := by
  induction ch generalizing init with
  | nil => simp [childrenLoop] at h
  | cons hd tl ih =>
    cases hd with
    | none =>
      rw [childrenLoop] at h
      obtain ⟨c, hc, hrest⟩ := ih init h
      exact ⟨c, List.mem_cons_of_mem _ hc, hrest⟩
    | some c =>
      rw [childrenLoop] at h
      by_cases hh : c.Hidden = true
      · rw [if_pos hh] at h
        obtain ⟨d, hd, hrest⟩ := ih init h
        exact ⟨d, List.mem_cons_of_mem _ hd, hrest⟩
      · rw [if_neg hh] at h
        rcases hn : nodeCommandNode c opts with ⟨_ | cmd, _ | e'⟩
        · rw [hn] at h
          obtain ⟨d, hd, hrest⟩ := ih init h
          exact ⟨d, List.mem_cons_of_mem _ hd, hrest⟩
        · rw [hn] at h
          simp only [Option.some.injEq] at h
          subst h
          exact ⟨c, List.mem_cons_self _ _, by simpa using hh, by rw [hn]⟩
        · rw [hn] at h
          obtain ⟨d, hd, hrest⟩ := ih _ h
          exact ⟨d, List.mem_cons_of_mem _ hd, hrest⟩
        · rw [hn] at h
          simp only [Option.some.injEq] at h
          subst h
          exact ⟨c, List.mem_cons_self _ _, by simpa using hh, by rw [hn]⟩

theorem childrenLoop_error_of (opts : options) (ch : List (Option kong.Node))
    (init : GoMap complete.Command) (c : kong.Node) (hc : some c ∈ ch)
    (hh : c.Hidden = false) (he : (nodeCommandNode c opts).2 ≠ none) :
    ∃ e, (childrenLoop ch opts init).2 = some e := by
  induction ch generalizing init with
  | nil => simp at hc
  | cons hd tl ih =>
    cases hd with
    | none =>
      rw [childrenLoop]
      exact ih init (by simpa using hc)
    | some d =>
      rw [childrenLoop]
      by_cases hd : d.Hidden = true
      · rw [if_pos hd]
        refine ih init ?_
        rcases List.mem_cons.mp hc with e | h'
        · cases e
          rw [hh] at hd
          cases hd
        · exact h'
      · rw [if_neg hd]
        rcases hn : nodeCommandNode d opts with ⟨_ | cmd, _ | e'⟩
        · simp only
          refine ih init ?_
          rcases List.mem_cons.mp hc with e | h'
          · cases e
            rw [hn] at he
            exact absurd rfl he
          · exact h'
        · exact ⟨e', rfl⟩
        · simp only
          refine ih _ ?_
          rcases List.mem_cons.mp hc with e | h'
          · cases e
            rw [hn] at he
            exact absurd rfl he
          · exact h'
        · exact ⟨e', rfl⟩

/-! ## Induction over the tree -/

theorem kong.Node.sizeOf_child_lt (node c : kong.Node) (h : some c ∈ node.Children) :
    sizeOf c < sizeOf node := by
  cases node with
  | mk name hidden flags positional children =>
    simp only [kong.Node.Children] at h
    have h1 := List.sizeOf_lt_of_mem h
    simp only [Option.some.sizeOf_spec] at h1
    simp only [kong.Node.mk.sizeOf_spec]
    omega

theorem kong.Node.induction_on {P : kong.Node → Prop}
    (step : ∀ node, (∀ c, some c ∈ node.Children → P c) → P node) (node : kong.Node) :
    P node := by
  have key : ∀ n (node : kong.Node), sizeOf node = n → P node := by
    intro n
    induction n using Nat.strong_induction_on with
    | _ n ih =>
      intro node hn
      apply step
      intro c hc
      exact ih (sizeOf c) (by rw [← hn]; exact kong.Node.sizeOf_child_lt node c hc) c rfl
  exact key _ node rfl

/-- Every error of the translation is the error of a value that the
translation resolves. -/
theorem nodeCommandNode_error (opts : options) (node : kong.Node) :
    ∀ e, (nodeCommandNode node opts).2 = some e →
      ∃ v, Resolved opts node v ∧ Unresolvable opts.predictors v ∧
        e = Error.noPredictor (v.Tag.Get predictorTag) := by
  induction node using kong.Node.induction_on with
  | step node ih =>
    intro e h
    rcases nodeCommandNode_error_cases node opts e h with h1 | h2 | h3
    · obtain ⟨c, hc, hh, hce⟩ := childrenLoop_error opts _ _ e h1
      obtain ⟨v, hv, hu, he⟩ := ih c hc e hce
      exact ⟨v, Resolved.child hc hh hv, hu, he⟩
    · obtain ⟨f, hf, hs, hu, he⟩ := flagsLoop_error opts _ _ e h2
      exact ⟨f.Value, Resolved.flag hf hs, hu, he⟩
    · obtain ⟨v, hv, hu, he⟩ := positionalPredictors_error _ _ e h3
      exact ⟨v, Resolved.positional hv, hu, he⟩

/-- A resolved value that is unresolvable makes the translation fail. -/
theorem nodeCommandNode_fails (opts : options) (node : kong.Node) (v : kong.Value)
    (hv : Resolved opts node v) (hu : Unresolvable opts.predictors v) :
    ∃ e, nodeCommandNode node opts = (none, some e) := by
  induction hv with
  | @flag node f hf hs =>
    apply nodeCommandNode_fails_of
    obtain ⟨e, he⟩ := flagsLoop_error_of opts node.Flags GoMap.empty f hf hs hu
    right; left
    rw [he]
    simp
  | @positional node v hv =>
    apply nodeCommandNode_fails_of
    obtain ⟨e, he⟩ := positionalPredictors_error_of node.Positional opts.predictors v hv hu
    right; right
    rw [he]
    simp
  | @child node c v hc hh _ ih =>
    apply nodeCommandNode_fails_of
    obtain ⟨e, he⟩ := ih hu
    obtain ⟨e', he'⟩ := childrenLoop_error_of opts node.Children GoMap.empty c hc hh (by
      rw [he]
      simp)
    left
    rw [he']
    simp

/-! ## Claim C1: unresolvable predictor names -/

/-- Claim C1, as stated, fails for a value that the translation never
resolves: the flag `secret` of this node is hidden and tagged with a name the
empty predictor map does not bind, yet `nodeCommand` and `Command` return a
command (with the flag `verbose`) and no error. -/
theorem translation_skips_hidden_flag_counterexample :
    Occurs (exSecretNode true) exSecret ∧
      Unresolvable (buildOptions []).predictors exSecret ∧
      nodeCommand (some (exSecretNode true)) (buildOptions []) =
        (some (.mk (some GoMap.empty)
          (some ⟨[("verbose", some complete.Predictor.Nothing)]⟩) none), none) ∧
      Command (some ⟨some ⟨exSecretNode true⟩⟩) [] =
        Outcome.returned (.mk (some GoMap.empty)
          (some ⟨[("verbose", some complete.Predictor.Nothing)]⟩) none, none) :=
  ⟨Occurs.flag (f := ⟨exSecret, 0, true⟩) (List.mem_cons_of_mem _ (List.mem_cons_self _ _)),
    ⟨rfl, rfl⟩, rfl, rfl⟩

/-- Claim C1 (amended): if a value that the translation resolves (on a flag
that is not skipped or in a positional slot, of the node or of a node reached
through non-nil children that are not hidden) carries a predictor tag whose
name the predictor map does not bind, then `nodeCommand` returns a nil command
and the error `no predictor with name n` for a name `n` the map does not bind,
and `Command` on a parser with this tree returns the empty command and that
error. -/
theorem translation_fails_on_unresolvable (node : kong.Node) (opts : options) (v : kong.Value)
    (hv : Resolved opts node v) (hu : Unresolvable opts.predictors v) :
    ∃ name, GoMap.nilGet? opts.predictors name = none ∧
      nodeCommand (some node) opts = (none, some (Error.noPredictor name)) ∧
      ∀ opt : List Opt, buildOptions opt = opts →
        Command (some ⟨some ⟨node⟩⟩) opt =
          Outcome.returned (complete.Command.zero, some (Error.noPredictor name)) := by
  obtain ⟨e, he⟩ := nodeCommandNode_fails opts node v hv hu
  obtain ⟨w, _, hw, rfl⟩ := nodeCommandNode_error opts node e (by rw [he])
  refine ⟨w.Tag.Get predictorTag, hw.2, he, ?_⟩
  intro opt hopt
  simp only [Command, hopt, nodeCommand, he]

/-- Witness of claim C1 (amended): the flag `secret`, not hidden, tagged with
a name that the empty predictor map does not bind. -/
theorem translation_fails_on_unresolvable_witness :
    Resolved (buildOptions []) (exSecretNode false) exSecret ∧
      ∃ name, GoMap.nilGet? (buildOptions []).predictors name = none ∧
        nodeCommand (some (exSecretNode false)) (buildOptions []) =
          (none, some (Error.noPredictor name)) ∧
        ∀ opt : List Opt, buildOptions opt = buildOptions [] →
          Command (some ⟨some ⟨exSecretNode false⟩⟩) opt =
            Outcome.returned (complete.Command.zero, some (Error.noPredictor name)) :=
  ⟨Resolved.flag (f := ⟨exSecret, 0, false⟩)
      (List.mem_cons_of_mem _ (List.mem_cons_self _ _)) rfl,
    translation_fails_on_unresolvable (exSecretNode false) (buildOptions []) exSecret
      (Resolved.flag (f := ⟨exSecret, 0, false⟩)
        (List.mem_cons_of_mem _ (List.mem_cons_self _ _)) rfl) ⟨rfl, rfl⟩⟩

/-! ## Registrations: who wrote an entry -/

theorem lastBinding_mem {V : Type} (k : String) (l : List (String × V)) (v : V)
    (h : lastBinding k l = some v) : (k, v) ∈ l := by
  induction l with
  | nil => simp [lastBinding] at h
  | cons hd tl ih =>
    obtain ⟨a, b⟩ := hd
    rw [lastBinding] at h
    cases ht : lastBinding k tl with
    | some w =>
      rw [ht] at h ih
      simp only [Option.some.injEq] at h
      subst h
      exact List.mem_cons_of_mem _ (ih rfl)
    | none =>
      rw [ht] at h
      by_cases e : a = k
      · rw [if_pos e] at h
        simp only [Option.some.injEq] at h
        subst h e
        exact List.mem_cons_self _ _
      · rw [if_neg e] at h
        cases h

theorem lastBinding_map_const {V : Type} (k : String) (ks : List String) (p : V)
    (h : k ∈ ks) : lastBinding k (ks.map (fun x => (x, p))) = some p := by
  have hne : lastBinding k (ks.map (fun x => (x, p))) ≠ none := by
    rw [Ne, lastBinding_eq_none_iff]
    simpa [List.map_map] using h
  cases hl : lastBinding k (ks.map (fun x => (x, p))) with
  | none => exact absurd hl hne
  | some w =>
    have := lastBinding_mem k _ w hl
    simp only [List.mem_map, Prod.mk.injEq] at this
    obtain ⟨_, _, _, rfl⟩ := this
    rfl

theorem mem_keys_flagEntries (opts : options) (fl : List (Option kong.Flag)) (k : String) :
    k ∈ (flagEntries opts fl).map Prod.fst ↔
      ∃ g, some g ∈ fl ∧ opts.Skip g = false ∧ k ∈ flagKeys g := by
  induction fl with
  | nil => simp [flagEntries]
  | cons hd tl ih =>
    cases hd with
    | none =>
      rw [flagEntries, ih]
      simp
    | some f =>
      rw [flagEntries]
      by_cases hs : opts.Skip f = true
      · rw [if_pos hs, ih]
        constructor
        · rintro ⟨g, hg, hrest⟩
          exact ⟨g, List.mem_cons_of_mem _ hg, hrest⟩
        · rintro ⟨g, hg, hsg, hk⟩
          rcases List.mem_cons.mp hg with e | h'
          · cases e
            rw [hsg] at hs
            cases hs
          · exact ⟨g, h', hsg, hk⟩
      · rw [if_neg hs]
        simp only [List.map_append, List.map_map, List.mem_append, ih]
        have hmap : k ∈ List.map (Prod.fst ∘ fun x => (x, (flagPredictor f opts.predictors).1))
            (flagKeys f) ↔ k ∈ flagKeys f := by
          simp [Function.comp_def]
        rw [hmap]
        constructor
        · rintro (h1 | ⟨g, hg, hrest⟩)
          · exact ⟨f, List.mem_cons_self _ _, by simpa using hs, h1⟩
          · exact ⟨g, List.mem_cons_of_mem _ hg, hrest⟩
        · rintro ⟨g, hg, hsg, hk⟩
          rcases List.mem_cons.mp hg with e | h'
          · cases e
            exact Or.inl hk
          · exact Or.inr ⟨g, h', hsg, hk⟩

theorem flagEntries_append (opts : options) (l₁ l₂ : List (Option kong.Flag)) :
    flagEntries opts (l₁ ++ l₂) = flagEntries opts l₁ ++ flagEntries opts l₂ := by
  induction l₁ with
  | nil => simp [flagEntries]
  | cons hd tl ih =>
    cases hd with
    | none => simp [flagEntries, ih]
    | some f =>
      by_cases hs : opts.Skip f = true
      · simp [flagEntries, hs, ih]
      · simp [flagEntries, hs, ih]

theorem mem_childEntries (opts : options) (ch : List (Option kong.Node)) (k : String)
    (cmd : complete.Command) (h : (k, cmd) ∈ childEntries opts ch) :
    ∃ d, some d ∈ ch ∧ d.Hidden = false ∧ d.Name = k ∧
      nodeCommandNode d opts = (some cmd, none) := by
  induction ch with
  | nil => simp [childEntries] at h
  | cons hd tl ih =>
    cases hd with
    | none =>
      rw [childEntries] at h
      obtain ⟨d, hd, hrest⟩ := ih h
      exact ⟨d, List.mem_cons_of_mem _ hd, hrest⟩
    | some c =>
      rw [childEntries] at h
      by_cases hh : c.Hidden = true
      · rw [if_pos hh] at h
        obtain ⟨d, hd, hrest⟩ := ih h
        exact ⟨d, List.mem_cons_of_mem _ hd, hrest⟩
      · rw [if_neg hh] at h
        rcases nodeCommandNode_shape c opts with ⟨e, he⟩ | ⟨c', hc'⟩
        · rw [he] at h
          obtain ⟨d, hd, hrest⟩ := ih h
          exact ⟨d, List.mem_cons_of_mem _ hd, hrest⟩
        · rw [hc'] at h
          rcases List.mem_cons.mp h with e | h'
          · simp only [Prod.mk.injEq] at e
            obtain ⟨rfl, rfl⟩ := e
            exact ⟨c, List.mem_cons_self _ _, by simpa using hh, rfl, hc'⟩
          · obtain ⟨d, hd, hrest⟩ := ih h'
            exact ⟨d, List.mem_cons_of_mem _ hd, hrest⟩

/-- An entry of the translated `Sub` map is the translation of a non-nil child
that is not hidden and has the entry's key as its name. -/
theorem sub_entry_origin (node : kong.Node) (opts : options) (cmd c : complete.Command)
    (k : String) (h : nodeCommandNode node opts = (some cmd, none))
    (hk : GoMap.nilGet? cmd.Sub k = some c) :
    ∃ d, some d ∈ node.Children ∧ d.Hidden = false ∧ d.Name = k ∧
      nodeCommandNode d opts = (some c, none) := by
  obtain ⟨hsub, -⟩ := nodeCommandNode_success node opts cmd h
  rw [hsub] at hk
  simp only [GoMap.nilGet?, GoMap.get?_setAll, GoMap.get?_empty] at hk
  cases hl : lastBinding k (childEntries opts node.Children) with
  | none =>
    rw [hl] at hk
    cases hk
  | some w =>
    rw [hl] at hk
    simp only [Option.some.injEq] at hk
    subst hk
    exact mem_childEntries opts _ k w (lastBinding_mem k _ w hl)

/-- The entry of the translated `Flags` map under a key, in terms of the
registrations of the node's flags. -/
theorem flags_entry (node : kong.Node) (opts : options) (cmd : complete.Command) (k : String)
    (h : nodeCommandNode node opts = (some cmd, none)) :
    GoMap.nilGet? cmd.Flags k = lastBinding k (flagEntries opts node.Flags) := by
  obtain ⟨-, hflags, -⟩ := nodeCommandNode_success node opts cmd h
  rw [hflags]
  simp only [GoMap.nilGet?, GoMap.get?_setAll, GoMap.get?_empty]
  cases lastBinding k (flagEntries opts node.Flags) <;> rfl

/-! ## Claim C5: hidden children -/

/-- Claim C5, as stated, fails when a visible sibling has the hidden child's
name: of the two children named `a` the second is hidden, the translation
succeeds, and its `Sub` map has an entry under `a`. -/
theorem hidden_child_name_taken_counterexample :
    some (exLeaf "a" true) ∈ exTwins.Children ∧ (exLeaf "a" true).Hidden = true ∧
      nodeCommand (some exTwins) (buildOptions []) =
        (some (.mk (some ⟨[("a", exLeafCmd)]⟩) (some GoMap.empty) none), none) ∧
      (GoMap.nilGet? (complete.Command.mk (some ⟨[("a", exLeafCmd)]⟩) (some GoMap.empty)
        none).Sub (exLeaf "a" true).Name).isSome = true :=
  ⟨List.mem_cons_of_mem _ (List.mem_cons_self _ _), rfl, rfl, rfl⟩

/-- Claim C5 (amended): when the translation of a node succeeds, every command
`c` found in the translated tree along a path of sub-command names is the
successful translation of a node `n` reached along that path through non-nil
children that are not hidden; every key of `c.Sub` is the name of a non-nil
child of `n` that is not hidden; so `c.Sub` has no entry under the name of a
hidden child of `n`, unless a child of `n` that is not hidden has that name. -/
theorem hidden_children_absent (node : kong.Node) (opts : options) (cmd : complete.Command)
    (h : nodeCommand (some node) opts = (some cmd, none)) (path : List String)
    (c : complete.Command) (hc : cmd.subAt path = some c) :
    ∃ n, VisibleAt node path n ∧ nodeCommand (some n) opts = (some c, none) ∧
      (∀ k sc, GoMap.nilGet? c.Sub k = some sc →
        ∃ d, some d ∈ n.Children ∧ d.Hidden = false ∧ d.Name = k) ∧
      ∀ x, some x ∈ n.Children → x.Hidden = true →
        (∀ d, some d ∈ n.Children → d.Hidden = false → d.Name ≠ x.Name) →
        GoMap.nilGet? c.Sub x.Name = none := by
  induction path generalizing node cmd with
  | nil =>
    simp only [complete.Command.subAt, Option.some.injEq] at hc
    subst hc
    have keys : ∀ k sc, GoMap.nilGet? cmd.Sub k = some sc →
        ∃ d, some d ∈ node.Children ∧ d.Hidden = false ∧ d.Name = k := by
      intro k sc hk
      obtain ⟨d, hd, hh, hn, -⟩ := sub_entry_origin node opts cmd sc k h hk
      exact ⟨d, hd, hh, hn⟩
    refine ⟨node, VisibleAt.here node, h, keys, ?_⟩
    intro x _ _ hx
    cases hg : GoMap.nilGet? cmd.Sub x.Name with
    | none => rfl
    | some sc =>
      obtain ⟨d, hd, hh, hn⟩ := keys _ sc hg
      exact absurd hn (hx d hd hh)
  | cons k ks ih =>
    rw [complete.Command.subAt] at hc
    cases hg : GoMap.nilGet? cmd.Sub k with
    | none =>
      rw [hg] at hc
      cases hc
    | some sc =>
      rw [hg] at hc
      obtain ⟨d, hd, hh, hn, hdc⟩ := sub_entry_origin node opts cmd sc k h hg
      obtain ⟨n, hvis, hrest⟩ := ih d sc hdc hc
      subst hn
      exact ⟨n, VisibleAt.step hd hh hvis, hrest⟩

/-- Witness of claim C5 (amended): below the visible child `a` of the root,
the hidden child `b` has no entry. -/
theorem hidden_children_absent_witness :
    ∃ n, VisibleAt exNested ["a"] n ∧
      nodeCommand (some n) (buildOptions []) = (some exLeafCmd, none) ∧
      (∀ k sc, GoMap.nilGet? exLeafCmd.Sub k = some sc →
        ∃ d, some d ∈ n.Children ∧ d.Hidden = false ∧ d.Name = k) ∧
      ∀ x, some x ∈ n.Children → x.Hidden = true →
        (∀ d, some d ∈ n.Children → d.Hidden = false → d.Name ≠ x.Name) →
        GoMap.nilGet? exLeafCmd.Sub x.Name = none :=
  hidden_children_absent exNested (buildOptions [])
    (.mk (some ⟨[("a", exLeafCmd)]⟩) (some GoMap.empty) none) rfl ["a"] exLeafCmd rfl

/-! ## Claims C6 and C7: the entries of `Flags` -/

/-- Claim C6, as stated, fails in its second half when the hidden flag's name
is the short name of another flag: the override sends `v` to false, the flag
with the long name `v` is skipped, and the translated `Flags` map still has an
entry under `v`, written for the short name of `--verbose`. -/
theorem hide_override_short_clash_counterexample :
    some (⟨exEnumV, 0, false⟩ : kong.Flag) ∈ exLongClash.Flags ∧
      GoMap.nilGet? exHideV.overrides (kong.Flag.Name ⟨exEnumV, 0, false⟩) = some false ∧
      nodeCommand (some exLongClash) exHideV =
        (some (.mk (some GoMap.empty) (some ⟨[("verbose", some complete.Predictor.Nothing),
          ("v", some complete.Predictor.Nothing)]⟩) none), none) ∧
      (GoMap.nilGet? (complete.Command.mk (some GoMap.empty)
        (some ⟨[("verbose", some complete.Predictor.Nothing),
          ("v", some complete.Predictor.Nothing)]⟩) none).Flags
        (kong.Flag.Name ⟨exEnumV, 0, false⟩)).isSome = true :=
  ⟨List.mem_cons_self _ _, rfl, rfl, rfl⟩

/-- Claim C6 (amended): when the translation of a node succeeds, for every
non-nil flag of the node: if the overrides send its name to true, the
translated `Flags` map has an entry under that name, hidden or not; if the
overrides send its name to false, the `Flags` map has no entry under that name,
hidden or not, unless the name is the string of the non-zero short rune of a
flag of the node that is not skipped. -/
theorem flag_overrides_decide (node : kong.Node) (opts : options) (cmd : complete.Command)
    (h : nodeCommand (some node) opts = (some cmd, none)) (f : kong.Flag)
    (hf : some f ∈ node.Flags) :
    (GoMap.nilGet? opts.overrides f.Name = some true →
        ∃ p, GoMap.nilGet? cmd.Flags f.Name = some p) ∧
      (GoMap.nilGet? opts.overrides f.Name = some false →
        (∀ g, some g ∈ node.Flags → opts.Skip g = false →
          ¬ (g.Short ≠ 0 ∧ runeString g.Short = f.Name)) →
        GoMap.nilGet? cmd.Flags f.Name = none) := by
  have hentry := flags_entry node opts cmd f.Name h
  constructor
  · intro hshow
    have hs : opts.Skip f = false := by simp [options.Skip, hshow]
    have hmem : f.Name ∈ (flagEntries opts node.Flags).map Prod.fst :=
      (mem_keys_flagEntries opts node.Flags f.Name).mpr
        ⟨f, hf, hs, by unfold flagKeys; split_ifs <;> simp⟩
    rw [hentry]
    cases hl : lastBinding f.Name (flagEntries opts node.Flags) with
    | none => exact absurd hmem ((lastBinding_eq_none_iff _ _).mp hl)
    | some p => exact ⟨p, rfl⟩
  · intro hhide hshort
    rw [hentry, lastBinding_eq_none_iff, mem_keys_flagEntries]
    rintro ⟨g, hg, hsg, hk⟩
    unfold flagKeys at hk
    have hname : f.Name ≠ g.Name := by
      intro e
      have : opts.Skip g = true := by simp [options.Skip, ← e, hhide]
      rw [hsg] at this
      cases this
    split_ifs at hk with h0
    · simp only [List.mem_cons, List.mem_singleton, List.not_mem_nil, or_false] at hk
      rcases hk with e | e
      · exact hname e
      · exact hshort g hg hsg ⟨h0, e.symm⟩
    · simp only [List.mem_singleton] at hk
      exact hname hk

/-- Witness of claim C6 (amended): with the overrides `verbose: true` and
`mode: false`, the hidden flag `verbose` has an entry and the visible flag
`mode` has none. -/
theorem flag_overrides_decide_witness :
    GoMap.nilGet? exShowHide.overrides "verbose" = some true ∧
      GoMap.nilGet? exShowHide.overrides "mode" = some false ∧
      (∃ p, GoMap.nilGet? (complete.Command.mk (some GoMap.empty)
        (some ⟨[("verbose", some complete.Predictor.Nothing)]⟩) none).Flags "verbose" =
          some p) ∧
      GoMap.nilGet? (complete.Command.mk (some GoMap.empty)
        (some ⟨[("verbose", some complete.Predictor.Nothing)]⟩) none).Flags "mode" = none :=
  ⟨rfl, rfl,
    (flag_overrides_decide exOverridden exShowHide
      (.mk (some GoMap.empty) (some ⟨[("verbose", some complete.Predictor.Nothing)]⟩) none)
      rfl ⟨exVerbose, 0, true⟩ (List.mem_cons_self _ _)).1 rfl,
    (flag_overrides_decide exOverridden exShowHide
      (.mk (some GoMap.empty) (some ⟨[("verbose", some complete.Predictor.Nothing)]⟩) none)
      rfl ⟨exMode ["fast", "slow"], 0, false⟩
      (List.mem_cons_of_mem _ (List.mem_cons_self _ _))).2 rfl (by
        intro g hg _ hshort
        simp only [exOverridden, kong.Node.Flags, List.mem_cons, Option.some.injEq,
          List.mem_singleton, List.not_mem_nil, or_false] at hg
        rcases hg with rfl | rfl <;> exact hshort.1 rfl)⟩

/-- Claim C7, as stated, fails when a later flag registers one of the keys:
`--verbose`/`-v` is followed by a flag with the long name `v`; the translation
succeeds, and the entry under `v` is the later flag's enum predictor, not the
predictor of `--verbose` that stands under `verbose`. -/
theorem short_alias_overwritten_counterexample :
    some (⟨exVerbose, 118, false⟩ : kong.Flag) ∈ exShortClash.Flags ∧
      (buildOptions []).Skip ⟨exVerbose, 118, false⟩ = false ∧
      runeString 118 = "v" ∧
      nodeCommand (some exShortClash) (buildOptions []) =
        (some (.mk (some GoMap.empty) (some ⟨[("verbose", some complete.Predictor.Nothing),
          ("v", some (complete.Predictor.Set ["x", "y"]))]⟩) none), none) ∧
      GoMap.nilGet? (complete.Command.mk (some GoMap.empty)
        (some ⟨[("verbose", some complete.Predictor.Nothing),
          ("v", some (complete.Predictor.Set ["x", "y"]))]⟩) none).Flags "verbose" ≠
        GoMap.nilGet? (complete.Command.mk (some GoMap.empty)
          (some ⟨[("verbose", some complete.Predictor.Nothing),
            ("v", some (complete.Predictor.Set ["x", "y"]))]⟩) none).Flags (runeString 118) := by
  refine ⟨List.mem_cons_self _ _, rfl, rfl, rfl, ?_⟩
  decide

/-- Claim C7 (amended): when the translation of a node succeeds, for every
non-nil flag of the node that is not skipped and has a non-zero short rune,
if no flag after it in `node.Flags` that is not skipped is registered under
its long name or under the string of its short rune, then the translated
`Flags` map has an entry under the long name and an entry under the string of
the short rune, and both are the predictor that `flagPredictor` returns for
the flag. -/
theorem short_alias_same_predictor (node : kong.Node) (opts : options)
    (cmd : complete.Command) (h : nodeCommand (some node) opts = (some cmd, none))
    (before after : List (Option kong.Flag)) (f : kong.Flag)
    (hpos : node.Flags = before ++ some f :: after) (hs : opts.Skip f = false)
    (hshort : f.Short ≠ 0)
    (hlast : ∀ g, some g ∈ after → opts.Skip g = false →
      f.Name ∉ flagKeys g ∧ runeString f.Short ∉ flagKeys g) :
    GoMap.nilGet? cmd.Flags f.Name = some (flagPredictor f opts.predictors).1 ∧
      GoMap.nilGet? cmd.Flags (runeString f.Short) =
        some (flagPredictor f opts.predictors).1 := by
  have key : ∀ k, k ∈ flagKeys f → (∀ g, some g ∈ after → opts.Skip g = false →
      k ∉ flagKeys g) →
      GoMap.nilGet? cmd.Flags k = some (flagPredictor f opts.predictors).1 := by
    intro k hk hafter
    rw [flags_entry node opts cmd k h, hpos, flagEntries_append, lastBinding_append]
    have hcons : flagEntries opts (some f :: after) =
        (flagKeys f).map (fun k => (k, (flagPredictor f opts.predictors).1))
          ++ flagEntries opts after := by
      rw [flagEntries]
      simp [hs]
    rw [hcons, lastBinding_append]
    have hnone : lastBinding k (flagEntries opts after) = none := by
      rw [lastBinding_eq_none_iff, mem_keys_flagEntries]
      rintro ⟨g, hg, hsg, hkg⟩
      exact hafter g hg hsg hkg
    rw [hnone]
    simp only
    rw [lastBinding_map_const k (flagKeys f) _ hk]
  constructor
  · exact key f.Name (by unfold flagKeys; simp [hshort])
      (fun g hg hsg => (hlast g hg hsg).1)
  · exact key (runeString f.Short) (by unfold flagKeys; simp [hshort])
      (fun g hg hsg => (hlast g hg hsg).2)

/-- Witness of claim C7 (amended): `--verbose`/`-v` followed by `--mode`. -/
theorem short_alias_same_predictor_witness :
    GoMap.nilGet? (complete.Command.mk (some GoMap.empty)
        (some ⟨[("verbose", some complete.Predictor.Nothing),
          ("v", some complete.Predictor.Nothing),
          ("mode", some (complete.Predictor.Set ["fast", "slow"]))]⟩)
        (some complete.Predictor.Something)).Flags (kong.Flag.Name ⟨exVerbose, 118, false⟩) =
        some (flagPredictor ⟨exVerbose, 118, false⟩ (buildOptions []).predictors).1 ∧
      GoMap.nilGet? (complete.Command.mk (some GoMap.empty)
        (some ⟨[("verbose", some complete.Predictor.Nothing),
          ("v", some complete.Predictor.Nothing),
          ("mode", some (complete.Predictor.Set ["fast", "slow"]))]⟩)
        (some complete.Predictor.Something)).Flags (runeString 118) =
        some (flagPredictor ⟨exVerbose, 118, false⟩ (buildOptions []).predictors).1 :=
  short_alias_same_predictor (exEndToEnd ["fast", "slow"]) (buildOptions []) _ rfl []
    [some ⟨exMode ["fast", "slow"], 0, false⟩] ⟨exVerbose, 118, false⟩ rfl rfl (by decide)
    (by
      intro g hg _
      simp only [List.mem_singleton, Option.some.injEq] at hg
      subst hg
      decide)

/-! ## Claim C8: the end-to-end example -/

/-- Claim C8: with an empty predictor map and no overrides, the command with
the boolean flag `--verbose`/`-v`, the enum flag `--mode` over `fast` and
`slow` without a short name, and one positional string translates without
error, in either order in which `range` may visit the enum map, to a command
whose `Flags` map has exactly the keys `verbose`, `v` and `mode`, with
`predict.Nothing` under `verbose` and `v` and the fixed set of `fast` and
`slow` under `mode`, and whose `Args` is `predict.Something`. -/
theorem end_to_end_example :
    nodeCommand (some (exEndToEnd ["fast", "slow"])) (buildOptions []) =
        (some (.mk (some GoMap.empty)
          (some ⟨[("verbose", some complete.Predictor.Nothing),
            ("v", some complete.Predictor.Nothing),
            ("mode", some (complete.Predictor.Set ["fast", "slow"]))]⟩)
          (some complete.Predictor.Something)), none) ∧
      nodeCommand (some (exEndToEnd ["slow", "fast"])) (buildOptions []) =
        (some (.mk (some GoMap.empty)
          (some ⟨[("verbose", some complete.Predictor.Nothing),
            ("v", some complete.Predictor.Nothing),
            ("mode", some (complete.Predictor.Set ["slow", "fast"]))]⟩)
          (some complete.Predictor.Something)), none) ∧
      (∀ (something : String → List String) (user : Nat → String → List String)
        (pre s : String),
        (s ∈ (complete.Predictor.Set ["fast", "slow"]).Predict something user pre ↔
          s = "fast" ∨ s = "slow") ∧
        (s ∈ (complete.Predictor.Set ["slow", "fast"]).Predict something user pre ↔
          s = "fast" ∨ s = "slow")) ∧
      Command (some ⟨some ⟨exEndToEnd ["fast", "slow"]⟩⟩) [] =
        Outcome.returned (.mk (some GoMap.empty)
          (some ⟨[("verbose", some complete.Predictor.Nothing),
            ("v", some complete.Predictor.Nothing),
            ("mode", some (complete.Predictor.Set ["fast", "slow"]))]⟩)
          (some complete.Predictor.Something), none) := by
  refine ⟨rfl, rfl, ?_, rfl⟩
  intro something user pre s
  constructor
  · simp [complete.Predictor.Predict]
  · simp only [complete.Predictor.Predict, List.mem_cons, List.mem_singleton,
      List.not_mem_nil, or_false]
    exact Or.comm

/-! ## Claim C9: positional slots -/

/-- Claim C9: when the translation of a node succeeds, `Args` is the predictor
that `valuePredictor` returns for the first positional slot, whatever the later
slots are, and is left unset when there is no slot; and when
`positionalPredictors` returns no error, its result has one predictor per
slot, in the order of the slots: the one `valuePredictor` returns for it. -/
theorem args_is_first_positional (node : kong.Node) (opts : options) (cmd : complete.Command)
    (h : nodeCommand (some node) opts = (some cmd, none)) :
    (∀ first rest, node.Positional = first :: rest →
        cmd.Args = (valuePredictor first opts.predictors).1) ∧
      (node.Positional = [] → cmd.Args = none) ∧
      ∀ (args : List (Option kong.Value)) (res : List (Option complete.Predictor)),
        positionalPredictors args opts.predictors = (res, none) →
        res.length = args.length ∧
        ∀ i (hi : i < args.length), res[i]? = some (valuePredictor args[i] opts.predictors).1 := by
  obtain ⟨-, -, hargs, -⟩ := nodeCommandNode_success node opts cmd h
  refine ⟨?_, ?_, ?_⟩
  · intro first rest hp
    rw [hargs, hp]
  · intro hp
    rw [hargs, hp]
  · intro args res hres
    have hok := positionalPredictors_ok args opts.predictors (by rw [hres])
    rw [hres] at hok
    simp only at hok
    subst hok
    refine ⟨by simp, ?_⟩
    intro i hi
    simp [List.getElem?_map, List.getElem?_eq_getElem hi]

/-- Witness of claim C9: the end-to-end example, whose only positional slot is
a free-form string. -/
theorem args_is_first_positional_witness :
    (∀ first rest, (exEndToEnd ["fast", "slow"]).Positional = first :: rest →
        complete.Command.Args (.mk (some GoMap.empty)
          (some ⟨[("verbose", some complete.Predictor.Nothing),
            ("v", some complete.Predictor.Nothing),
            ("mode", some (complete.Predictor.Set ["fast", "slow"]))]⟩)
          (some complete.Predictor.Something)) =
          (valuePredictor first (buildOptions []).predictors).1) ∧
      ((exEndToEnd ["fast", "slow"]).Positional = [] →
        complete.Command.Args (.mk (some GoMap.empty)
          (some ⟨[("verbose", some complete.Predictor.Nothing),
            ("v", some complete.Predictor.Nothing),
            ("mode", some (complete.Predictor.Set ["fast", "slow"]))]⟩)
          (some complete.Predictor.Something)) = none) ∧
      ∀ (args : List (Option kong.Value)) (res : List (Option complete.Predictor)),
        positionalPredictors args (buildOptions []).predictors = (res, none) →
        res.length = args.length ∧
        ∀ i (hi : i < args.length),
          res[i]? = some (valuePredictor args[i] (buildOptions []).predictors).1 :=
  args_is_first_positional (exEndToEnd ["fast", "slow"]) (buildOptions []) _ rfl

/-! ## Claim C10: the option builder -/

theorem lastBinding_map_fun {V : Type} (k : String) (ks : List String) (g : String → V)
    (h : k ∈ ks) : lastBinding k (ks.map (fun x => (x, g x))) = some (g k) := by
  have hne : lastBinding k (ks.map (fun x => (x, g x))) ≠ none := by
    rw [Ne, lastBinding_eq_none_iff]
    simpa [List.map_map] using h
  cases hl : lastBinding k (ks.map (fun x => (x, g x))) with
  | none => exact absurd hl hne
  | some w =>
    have := lastBinding_mem k _ w hl
    simp only [List.mem_map, Prod.mk.injEq] at this
    obtain ⟨x, _, rfl, rfl⟩ := this
    rfl

theorem lastBinding_eq_lookupEntries {V : Type} (k : String) (l : List (String × V))
    (h : (l.map Prod.fst).Nodup) : lastBinding k l = GoMap.lookupEntries k l := by
  induction l with
  | nil => rfl
  | cons hd tl ih =>
    obtain ⟨a, b⟩ := hd
    simp only [List.map_cons, List.nodup_cons] at h
    rw [lastBinding, GoMap.lookupEntries, ih h.2]
    by_cases e : a = k
    · subst e
      rw [(GoMap.lookupEntries_eq_none_iff a tl).mpr h.1]
    · simp only [if_neg e]
      cases GoMap.lookupEntries k tl <;> rfl

theorem nilGet?_WithPredictor (name k : String) (p : Option complete.Predictor) (o : options) :
    GoMap.nilGet? (WithPredictor name p o).predictors k =
      if name = k then some p else GoMap.nilGet? o.predictors k := by
  cases hp : o.predictors with
  | none => simp [WithPredictor, hp, GoMap.nilGet?, GoMap.get?_set, GoMap.get?_empty]
  | some m => simp [WithPredictor, hp, GoMap.nilGet?, GoMap.get?_set]

theorem nilGet?_WithPredictorsLoop (l : List (String × Option complete.Predictor))
    (o : options) (k : String) :
    GoMap.nilGet? (WithPredictorsLoop l o).predictors k =
      match lastBinding k l with
      | some p => some p
      | none => GoMap.nilGet? o.predictors k := by
  induction l generalizing o with
  | nil => simp [WithPredictorsLoop, lastBinding]
  | cons hd tl ih =>
    obtain ⟨a, b⟩ := hd
    rw [WithPredictorsLoop, ih, lastBinding, nilGet?_WithPredictor]
    cases lastBinding k tl <;> by_cases e : a = k <;> simp [e]

theorem WithPredictorsLoop_frame (l : List (String × Option complete.Predictor))
    (o : options) :
    (WithPredictorsLoop l o).exitFunc = o.exitFunc ∧
      (WithPredictorsLoop l o).errorHandler = o.errorHandler ∧
      (WithPredictorsLoop l o).overrides = o.overrides := by
  induction l generalizing o with
  | nil => simp [WithPredictorsLoop]
  | cons hd tl ih =>
    obtain ⟨a, b⟩ := hd
    rw [WithPredictorsLoop]
    obtain ⟨h1, h2, h3⟩ := ih (WithPredictor a b o)
    exact ⟨h1, h2, h3⟩

theorem applyOptions_WithPredictor (l : List (String × Option complete.Predictor))
    (o : options) :
    applyOptions (l.map (fun kv => WithPredictor kv.1 kv.2)) o = WithPredictorsLoop l o := by
  induction l generalizing o with
  | nil => rfl
  | cons hd tl ih =>
    obtain ⟨a, b⟩ := hd
    simp only [List.map_cons, applyOptions, WithPredictorsLoop]
    exact ih _

theorem toOpt_eq_loop (s : PredictorOption) (o : options) :
    s.toOpt o = WithPredictorsLoop s.bindings o := by
  cases s <;> rfl

theorem applyOptions_toOpt (specs : List PredictorOption) (o : options) :
    applyOptions (specs.map PredictorOption.toOpt) o =
      WithPredictorsLoop (specs.flatMap PredictorOption.bindings) o := by
  induction specs generalizing o with
  | nil => rfl
  | cons hd tl ih =>
    simp only [List.map_cons, applyOptions, List.flatMap_cons]
    rw [ih, toOpt_eq_loop]
    generalize hd.bindings = l
    induction l generalizing o with
    | nil => rfl
    | cons x xs ihx =>
      obtain ⟨a, b⟩ := x
      simp only [List.cons_append, WithPredictorsLoop]
      exact ihx _

theorem supplies_eq_lastBinding (s : PredictorOption) (hs : s.WellFormed) (k : String) :
    lastBinding k s.bindings = s.supplies k := by
  cases s with
  | one name p =>
    simp [PredictorOption.bindings, PredictorOption.supplies, lastBinding]
  | many m =>
    exact lastBinding_eq_lookupEntries k m.entries hs

theorem lastSupplied_eq_lastBinding (specs : List PredictorOption)
    (h : ∀ s ∈ specs, s.WellFormed) (k : String) :
    lastBinding k (specs.flatMap PredictorOption.bindings) = lastSupplied k specs := by
  induction specs with
  | nil => rfl
  | cons hd tl ih =>
    rw [List.flatMap_cons, lastBinding_append, lastSupplied,
      ih (fun s hs => h s (List.mem_cons_of_mem _ hs)),
      supplies_eq_lastBinding hd (h hd (List.mem_cons_self _ _))]
    cases lastSupplied k tl <;> rfl

theorem lastSupplied_isSome_iff (specs : List PredictorOption) (k : String) :
    (∃ p, lastSupplied k specs = some p) ↔ ∃ s ∈ specs, ∃ p, s.supplies k = some p := by
  induction specs with
  | nil => simp [lastSupplied]
  | cons hd tl ih =>
    rw [lastSupplied]
    cases hl : lastSupplied k tl with
    | some p =>
      rw [hl] at ih
      obtain ⟨s, hs, hp⟩ := ih.mp ⟨p, rfl⟩
      exact ⟨fun _ => ⟨s, List.mem_cons_of_mem _ hs, hp⟩, fun _ => ⟨p, rfl⟩⟩
    | none =>
      rw [hl] at ih
      simp only
      constructor
      · intro hp
        exact ⟨hd, List.mem_cons_self _ _, hp⟩
      · rintro ⟨s, hs, hp⟩
        rcases List.mem_cons.mp hs with e | h'
        · subst e
          exact hp
        · obtain ⟨q, hq⟩ := ih.mpr ⟨s, h', hp⟩
          cases hq

theorem WithPredictorsLoop_nodup (l : List (String × Option complete.Predictor))
    (o : options) (h : ∃ m, o.predictors = some m ∧ m.keys.Nodup) :
    ∃ m, (WithPredictorsLoop l o).predictors = some m ∧ m.keys.Nodup := by
  induction l generalizing o with
  | nil => exact h
  | cons hd tl ih =>
    obtain ⟨a, b⟩ := hd
    rw [WithPredictorsLoop]
    apply ih
    obtain ⟨m, hm, hn⟩ := h
    exact ⟨m.set a b, by simp [WithPredictor, hm], GoMap.nodup_keys_set m a b hn⟩

/-- Claim C10: `buildOptions` without options leaves the predictor map empty;
after any sequence of `WithPredictor` and `WithPredictors` options (whose map
arguments are Go maps, with distinct keys) the predictor map has as keys
exactly the names some option supplied, each once, and binds each name to the
predictor of the last option in the sequence that supplied it; and
`WithPredictors(m)` changes the options exactly as `WithPredictor(k, m[k])`
applied for the keys `k` of `m` in any order: the same binding for every name
and no other field touched. -/
theorem buildOptions_predictors (specs : List PredictorOption)
    (hmaps : ∀ s ∈ specs, s.WellFormed) :
    (buildOptions []).predictors = some GoMap.empty ∧
      (∃ m, (buildOptions (specs.map PredictorOption.toOpt)).predictors = some m ∧
        m.keys.Nodup ∧
        (∀ k, k ∈ m.keys ↔ ∃ s ∈ specs, ∃ p, s.supplies k = some p) ∧
        ∀ k, m.get? k = lastSupplied k specs) ∧
      ∀ (mp : GoMap (Option complete.Predictor)) (order : List String) (o : options),
        mp.keys.Nodup → order.Perm mp.keys →
        (∀ k, GoMap.nilGet? (WithPredictors mp o).predictors k =
          GoMap.nilGet? (applyOptions
            (order.map (fun key => WithPredictor key ((mp.get? key).getD none))) o).predictors
            k) ∧
        (WithPredictors mp o).exitFunc = (applyOptions
          (order.map (fun key => WithPredictor key ((mp.get? key).getD none))) o).exitFunc ∧
        (WithPredictors mp o).errorHandler = (applyOptions
          (order.map (fun key => WithPredictor key ((mp.get? key).getD none))) o).errorHandler ∧
        (WithPredictors mp o).overrides = (applyOptions
          (order.map (fun key => WithPredictor key ((mp.get? key).getD none))) o).overrides := by
  refine ⟨rfl, ?_, ?_⟩
  · obtain ⟨m, hm, hn⟩ := WithPredictorsLoop_nodup (specs.flatMap PredictorOption.bindings)
      { predictors := some GoMap.empty, exitFunc := none, errorHandler := none,
        overrides := none } ⟨GoMap.empty, rfl, GoMap.nodup_keys_empty⟩
    have hget : ∀ k, m.get? k = lastSupplied k specs := by
      intro k
      have := nilGet?_WithPredictorsLoop (specs.flatMap PredictorOption.bindings)
        { predictors := some GoMap.empty, exitFunc := none, errorHandler := none,
          overrides := none } k
      rw [hm, lastSupplied_eq_lastBinding specs hmaps k] at this
      simp only [GoMap.nilGet?, GoMap.get?_empty] at this
      rw [this]
      cases lastSupplied k specs <;> rfl
    refine ⟨m, ?_, hn, ?_, hget⟩
    · rw [buildOptions, applyOptions_toOpt, hm]
    · intro k
      rw [GoMap.mem_keys_iff, hget, lastSupplied_isSome_iff]
  · intro mp order o hnodup hperm
    have hre : order.map (fun key => WithPredictor key ((mp.get? key).getD none)) =
        (order.map (fun key => (key, (mp.get? key).getD none))).map
          (fun kv => WithPredictor kv.1 kv.2) := by
      simp [List.map_map, Function.comp_def]
    rw [hre, applyOptions_WithPredictor]
    obtain ⟨a1, a2, a3⟩ := WithPredictorsLoop_frame mp.entries o
    obtain ⟨b1, b2, b3⟩ := WithPredictorsLoop_frame
      (order.map (fun key => (key, (mp.get? key).getD none))) o
    refine ⟨?_, by rw [WithPredictors, a1, b1], by rw [WithPredictors, a2, b2],
      by rw [WithPredictors, a3, b3]⟩
    intro k
    rw [WithPredictors, nilGet?_WithPredictorsLoop, nilGet?_WithPredictorsLoop,
      lastBinding_eq_lookupEntries k mp.entries hnodup]
    by_cases hk : k ∈ mp.keys
    · rw [lastBinding_map_fun k order (fun key => (mp.get? key).getD none)
        (hperm.mem_iff.mpr hk)]
      obtain ⟨v, hv⟩ := (GoMap.mem_keys_iff mp k).mp hk
      have hv' : GoMap.lookupEntries k mp.entries = some v := hv
      rw [hv', hv]
      rfl
    · have h1 : GoMap.lookupEntries k mp.entries = none :=
        (GoMap.lookupEntries_eq_none_iff k mp.entries).mpr hk
      have h2 : lastBinding k (order.map (fun key => (key, (mp.get? key).getD none))) =
          none := by
        rw [lastBinding_eq_none_iff]
        simp only [List.map_map, Function.comp_def, List.map_id']
        exact fun hc => hk (hperm.mem_iff.mp hc)
      rw [h1, h2]

/-- Witness of claim C10: `WithPredictor("a", p1)`, then `WithPredictors` of
the map `a: p2, b: Nothing`, then `WithPredictor("b", p3)`. -/
theorem buildOptions_predictors_witness :
    (buildOptions (exPredictorOptions.map PredictorOption.toOpt)).predictors =
        some ⟨[("a", some (.custom 2)), ("b", some (.custom 3))]⟩ ∧
      lastSupplied "a" exPredictorOptions = some (some (.custom 2)) ∧
      lastSupplied "b" exPredictorOptions = some (some (.custom 3)) ∧
      ((buildOptions []).predictors = some GoMap.empty ∧
      (∃ m, (buildOptions (exPredictorOptions.map PredictorOption.toOpt)).predictors = some m ∧
        m.keys.Nodup ∧
        (∀ k, k ∈ m.keys ↔ ∃ s ∈ exPredictorOptions, ∃ p, s.supplies k = some p) ∧
        ∀ k, m.get? k = lastSupplied k exPredictorOptions) ∧
      ∀ (mp : GoMap (Option complete.Predictor)) (order : List String) (o : options),
        mp.keys.Nodup → order.Perm mp.keys →
        (∀ k, GoMap.nilGet? (WithPredictors mp o).predictors k =
          GoMap.nilGet? (applyOptions
            (order.map (fun key => WithPredictor key ((mp.get? key).getD none))) o).predictors
            k) ∧
        (WithPredictors mp o).exitFunc = (applyOptions
          (order.map (fun key => WithPredictor key ((mp.get? key).getD none))) o).exitFunc ∧
        (WithPredictors mp o).errorHandler = (applyOptions
          (order.map (fun key => WithPredictor key ((mp.get? key).getD none))) o).errorHandler ∧
        (WithPredictors mp o).overrides = (applyOptions
          (order.map (fun key => WithPredictor key ((mp.get? key).getD none))) o).overrides) :=
  ⟨rfl, rfl, rfl, buildOptions_predictors exPredictorOptions (by
    intro s hs
    simp only [exPredictorOptions, List.mem_cons, List.mem_singleton, List.not_mem_nil,
      or_false] at hs
    rcases hs with rfl | rfl | rfl
    · trivial
    · show List.Nodup ["a", "b"]
      decide
    · trivial)⟩

/-! ## Claim C11: nil handling -/

/-- Claim C11: `nodeCommand` returns a nil command and no error for the nil
node; for a non-nil node it returns either a nil command with an error or a
non-nil command, with both maps initialised, without an error, and never a
command together with an error; `Command` returns the empty command and no
error for the nil parser and for a parser whose model is nil, whatever the
options are. -/
theorem nodeCommand_nil_handling (node : kong.Node) (opts : options) (opt : List Opt) :
    nodeCommand none opts = (none, none) ∧
      ((∃ e, nodeCommand (some node) opts = (none, some e)) ∨
        ∃ cmd sub flags, nodeCommand (some node) opts = (some cmd, none) ∧
          cmd.Sub = some sub ∧ cmd.Flags = some flags) ∧
      (¬ ∃ cmd e, nodeCommand (some node) opts = (some cmd, some e)) ∧
      Command none opt = Outcome.returned (complete.Command.zero, none) ∧
      Command (some ⟨none⟩) opt = Outcome.returned (complete.Command.zero, none) := by
  refine ⟨rfl, ?_, ?_, rfl, rfl⟩
  · rcases nodeCommandNode_shape node opts with he | ⟨cmd, hc⟩
    · exact Or.inl he
    · obtain ⟨hsub, hflags, -⟩ := nodeCommandNode_success node opts cmd hc
      exact Or.inr ⟨cmd, _, _, hc, hsub, hflags⟩
  · rintro ⟨cmd, e, h⟩
    rcases nodeCommandNode_shape node opts with ⟨e', he⟩ | ⟨cmd', hc⟩
    · rw [nodeCommand, he] at h
      cases h
    · rw [nodeCommand, hc] at h
      cases h

/-! ## Claim C12: registration -/

/-- The runs of `Register` on a parser with a model, by the result of the
translation and by whether the handler and the exit function return. -/
theorem Register_runs (model : kong.Application) (parserExitReturns : Bool) (opt : List Opt) :
    (∀ cmd, nodeCommand (some model.Node) (buildOptions opt) = (some cmd, none) →
        Register (some ⟨some model⟩) parserExitReturns opt =
          ⟨[Effect.complete cmd model.Node.Name], Ending.completed⟩) ∧
      (∀ e, nodeCommand (some model.Node) (buildOptions opt) = (none, some e) →
        Register (some ⟨some model⟩) parserExitReturns opt =
          if (callErrHandler (buildOptions opt) e).2 = false then
            ⟨[(callErrHandler (buildOptions opt) e).1], Ending.exited⟩
          else if (callExitFunc (buildOptions opt) parserExitReturns 1).2 = false then
            ⟨[(callErrHandler (buildOptions opt) e).1,
              (callExitFunc (buildOptions opt) parserExitReturns 1).1], Ending.exited⟩
          else
            ⟨[(callErrHandler (buildOptions opt) e).1,
              (callExitFunc (buildOptions opt) parserExitReturns 1).1,
              Effect.complete complete.Command.zero model.Node.Name], Ending.completed⟩) := by
  constructor
  · intro cmd h
    simp only [Register, Command, h, completeStep]
  · intro e h
    simp only [Register, Command, h, completeStep]

/-- Claim C12, evaluated where the code departs from it: the translation
fails on the flag tagged `missing`, the caller's error handler and the
caller's exit function both return, and `Register` goes on to call the
completion routine, on the empty command. -/
theorem Register_completes_after_exit_returns :
    nodeCommand (some (exSecretNode false))
        (buildOptions [WithErrorHandler (some exHandler),
          WithExitFunc (some exReturningExit)]) =
        (none, some (Error.noPredictor "missing")) ∧
      Register (some ⟨some ⟨exSecretNode false⟩⟩) false
        [WithErrorHandler (some exHandler), WithExitFunc (some exReturningExit)] =
        ⟨[Effect.handler 2 (Error.noPredictor "missing"), Effect.exit 1 1,
          Effect.complete complete.Command.zero "app"], Ending.completed⟩ ∧
      Register (some ⟨some ⟨exSecretNode false⟩⟩) false
        [WithErrorHandler (some exHandler), WithExitFunc (some exFinalExit)] =
        ⟨[Effect.handler 2 (Error.noPredictor "missing"), Effect.exit 1 1],
          Ending.exited⟩ :=
  ⟨rfl, rfl, rfl⟩

/-! ## Claim C13: overrides and commands -/

/-- Claim C13, evaluated where the code departs from it: with the overrides
`secret: true` and `open: false`, the translation succeeds, the hidden child
`secret` has no entry in `Sub`, and the visible child `open` has one: the
overrides are never consulted for commands. -/
theorem overrides_ignored_for_commands :
    GoMap.nilGet? exCmdOverrides.overrides "secret" = some true ∧
      GoMap.nilGet? exCmdOverrides.overrides "open" = some false ∧
      nodeCommand (some exHiddenCmd) exCmdOverrides =
        (some (.mk (some ⟨[("open", exLeafCmd)]⟩) (some GoMap.empty) none), none) ∧
      GoMap.nilGet? (complete.Command.mk (some ⟨[("open", exLeafCmd)]⟩) (some GoMap.empty)
        none).Sub "secret" = none ∧
      (GoMap.nilGet? (complete.Command.mk (some ⟨[("open", exLeafCmd)]⟩) (some GoMap.empty)
        none).Sub "open").isSome = true :=
  ⟨rfl, rfl, rfl, rfl, rfl⟩

/-! ## Claim C14: the first error -/

theorem tagPredictor_error_of_unresolvable (v : kong.Value)
    (predictors : Option (GoMap (Option complete.Predictor)))
    (h : Unresolvable predictors v) :
    (tagPredictor (some v.Tag) predictors).2 =
      some (Error.noPredictor (v.Tag.Get predictorTag)) := by
  obtain ⟨h1, h2⟩ := h
  simp [tagPredictor_some, h1, h2]

theorem tagPredictor_ok_of_resolvable (v : kong.Value)
    (predictors : Option (GoMap (Option complete.Predictor)))
    (h : ¬ Unresolvable predictors v) :
    (tagPredictor (some v.Tag) predictors).2 = none := by
  rw [tagPredictor_some]
  cases h1 : v.Tag.Has predictorTag
  · simp
  · cases h2 : GoMap.nilGet? predictors (v.Tag.Get predictorTag) with
    | none => exact absurd ⟨h1, h2⟩ h
    | some p => simp

theorem valuePredictor_snd (v : kong.Value)
    (predictors : Option (GoMap (Option complete.Predictor))) :
    (valuePredictor (some v) predictors).2 = (tagPredictor (some v.Tag) predictors).2 := by
  by_cases h : Unresolvable predictors v
  · rw [valuePredictor_unresolvable v predictors h,
      tagPredictor_error_of_unresolvable v predictors h]
  · rw [tagPredictor_ok_of_resolvable v predictors h]
    cases hv : (valuePredictor (some v) predictors).2 with
    | none => rfl
    | some e => exact absurd (valuePredictor_error v predictors e hv).1 h

theorem firstError_append (predictors : Option (GoMap (Option complete.Predictor)))
    (l₁ l₂ : List kong.Value) :
    firstError predictors (l₁ ++ l₂) =
      match firstError predictors l₁ with
      | some e => some e
      | none => firstError predictors l₂ := by
  induction l₁ with
  | nil => rfl
  | cons v tl ih =>
    rw [List.cons_append, firstError, firstError]
    cases (tagPredictor (some v.Tag) predictors).2 with
    | some e => rfl
    | none => exact ih

theorem firstError_of_resolvable (predictors : Option (GoMap (Option complete.Predictor)))
    (l : List kong.Value) (h : ∀ w ∈ l, ¬ Unresolvable predictors w) :
    firstError predictors l = none := by
  induction l with
  | nil => rfl
  | cons v tl ih =>
    rw [firstError, tagPredictor_ok_of_resolvable v predictors (h v (List.mem_cons_self _ _))]
    exact ih (fun w hw => h w (List.mem_cons_of_mem _ hw))

theorem positionalPredictors_snd (args : List (Option kong.Value))
    (predictors : Option (GoMap (Option complete.Predictor))) :
    (positionalPredictors args predictors).2 =
      firstError predictors (positionalValues args) := by
  induction args with
  | nil => rfl
  | cons hd tl ih =>
    rw [positionalPredictors]
    cases hd with
    | none =>
      rw [positionalValues, ← ih]
      simp only [valuePredictor]
      rcases positionalPredictors tl predictors with ⟨ps, _ | e⟩ <;> rfl
    | some v =>
      rw [positionalValues, firstError, ← valuePredictor_snd, ← ih]
      rcases valuePredictor (some v) predictors with ⟨p, _ | e⟩
      · rcases positionalPredictors tl predictors with ⟨ps, _ | e⟩ <;> rfl
      · rfl

theorem flagsLoop_snd (opts : options) (fl : List (Option kong.Flag))
    (init : GoMap (Option complete.Predictor)) :
    (flagsLoop opts fl init).2 = firstError opts.predictors (flagValues opts fl) := by
  induction fl generalizing init with
  | nil => rfl
  | cons hd tl ih =>
    cases hd with
    | none =>
      rw [flagsLoop, flagValues]
      exact ih init
    | some f =>
      rw [flagsLoop, flagValues]
      by_cases hs : opts.Skip f = true
      · rw [if_pos hs, if_pos hs]
        exact ih init
      · rw [if_neg hs, if_neg hs, firstError, ← valuePredictor_snd]
        rw [flagPredictor]
        rcases valuePredictor (some f.Value) opts.predictors with ⟨p, _ | e⟩
        · exact ih _
        · rfl

theorem childrenLoop_snd (opts : options) (ch : List (Option kong.Node))
    (init : GoMap complete.Command)
    (hch : ∀ c, some c ∈ ch →
      (nodeCommandNode c opts).2 = firstError opts.predictors (resolvedValues opts c)) :
    (childrenLoop ch opts init).2 =
      firstError opts.predictors (resolvedValuesChildren opts ch) := by
  induction ch generalizing init with
  | nil =>
    rw [childrenLoop, resolvedValuesChildren]
    rfl
  | cons hd tl ih =>
    have htl : ∀ c, some c ∈ tl →
        (nodeCommandNode c opts).2 = firstError opts.predictors (resolvedValues opts c) :=
      fun c hc => hch c (List.mem_cons_of_mem _ hc)
    cases hd with
    | none =>
      rw [childrenLoop, resolvedValuesChildren]
      exact ih init htl
    | some c =>
      rw [childrenLoop, resolvedValuesChildren]
      by_cases hh : c.Hidden = true
      · rw [if_pos hh, if_pos hh]
        exact ih init htl
      · rw [if_neg hh, if_neg hh, firstError_append, ← hch c (List.mem_cons_self _ _)]
        rcases nodeCommandNode c opts with ⟨_ | cmd, _ | e⟩
        · exact ih init htl
        · rfl
        · exact ih _ htl
        · rfl

theorem resolvedValues_eq (opts : options) (node : kong.Node) :
    resolvedValues opts node =
      resolvedValuesChildren opts node.Children ++ flagValues opts node.Flags
        ++ positionalValues node.Positional := by
  cases node
  rw [resolvedValues]
  rfl

/-- The error of a translation is the first error in the order of
`resolvedValues`. -/
theorem nodeCommandNode_snd (opts : options) (node : kong.Node) :
    (nodeCommandNode node opts).2 = firstError opts.predictors (resolvedValues opts node) := by
  induction node using kong.Node.induction_on with
  | step node ih =>
    have h1 := childrenLoop_snd opts node.Children GoMap.empty ih
    have h2 := flagsLoop_snd opts node.Flags GoMap.empty
    have h3 := positionalPredictors_snd node.Positional opts.predictors
    rw [resolvedValues_eq, firstError_append, firstError_append, ← h1, ← h2, ← h3,
      nodeCommandNode_eq]
    rcases childrenLoop node.Children opts GoMap.empty with ⟨sub, _ | e₁⟩
    · rcases flagsLoop opts node.Flags GoMap.empty with ⟨flags, _ | e₂⟩
      · rcases positionalPredictors node.Positional opts.predictors with ⟨pps, _ | e₃⟩ <;>
          rfl
      · rfl
    · rfl

/-- Claim C14: when the values that the traversal of a node meets, in its
order (the non-hidden children one after the other, each completely, then the
flags that are not skipped, then the positional slots), are `before`, then `v`,
then `after`, and `v` is the first of them whose predictor name the map does
not bind, `nodeCommand` returns a nil command and exactly the error that
`tagPredictor` reports for `v`, which names the tag of `v`; the values in
`after` have no part in the result. -/
theorem first_error_propagates (node : kong.Node) (opts : options)
    (before after : List kong.Value) (v : kong.Value)
    (horder : resolvedValues opts node = before ++ v :: after)
    (hbefore : ∀ w ∈ before, ¬ Unresolvable opts.predictors w)
    (hv : Unresolvable opts.predictors v) :
    nodeCommand (some node) opts = (none, (tagPredictor (some v.Tag) opts.predictors).2) ∧
      (tagPredictor (some v.Tag) opts.predictors).2 =
        some (Error.noPredictor (v.Tag.Get predictorTag)) := by
  have herr := tagPredictor_error_of_unresolvable v opts.predictors hv
  refine ⟨?_, herr⟩
  have hsnd := nodeCommandNode_snd opts node
  rw [horder, firstError_append, firstError_of_resolvable opts.predictors before hbefore,
    firstError, herr] at hsnd
  simp only at hsnd
  rcases nodeCommandNode_shape node opts with ⟨e, he⟩ | ⟨cmd, hc⟩
  · rw [he] at hsnd
    simp only [Option.some.injEq] at hsnd
    rw [nodeCommand, he, herr, hsnd]
  · rw [hc] at hsnd
    cases hsnd

/-- Witness of claim C14: three unresolvable names, `first` on a positional of
the child, `second` on a flag and `third` on a positional of the root; the
error names `first`. -/
theorem first_error_propagates_witness :
    resolvedValues (buildOptions []) exThreeErrors =
        [] ++ exTagged "inner" "first" ::
          [exTagged "flag" "second", exTagged "pos" "third"] ∧
      nodeCommand (some exThreeErrors) (buildOptions []) =
        (none, (tagPredictor (some (exTagged "inner" "first").Tag)
          (buildOptions []).predictors).2) ∧
      (tagPredictor (some (exTagged "inner" "first").Tag) (buildOptions []).predictors).2 =
        some (Error.noPredictor ((exTagged "inner" "first").Tag.Get predictorTag)) :=
  ⟨rfl, first_error_propagates exThreeErrors (buildOptions []) []
    [exTagged "flag" "second", exTagged "pos" "third"] (exTagged "inner" "first") rfl
    (fun _ hw => absurd hw (List.not_mem_nil _)) ⟨rfl, rfl⟩⟩

/-! ## Claim C15: the visibility policy -/

/-- Claim C15: for every flag and every options, `Skip` is the negation of the
override bound to the flag's long name when there is one, and the flag's
`Hidden` when there is none, in particular when the overrides map is nil or
empty; two flags with the same long name and the same `Hidden` are skipped
alike, whatever their short names are. -/
theorem Skip_by_long_name (o : options) (f : kong.Flag) :
    (∀ doShow, GoMap.nilGet? o.overrides f.Name = some doShow → o.Skip f = !doShow) ∧
      (GoMap.nilGet? o.overrides f.Name = none → o.Skip f = f.Hidden) ∧
      (o.overrides = none ∨ o.overrides = some GoMap.empty → o.Skip f = f.Hidden) ∧
      ∀ g : kong.Flag, g.Name = f.Name → g.Hidden = f.Hidden → o.Skip g = o.Skip f := by
  refine ⟨?_, ?_, ?_, ?_⟩
  · intro doShow h
    simp [options.Skip, h]
  · intro h
    simp [options.Skip, h]
  · intro h
    have hnone : GoMap.nilGet? o.overrides f.Name = none := by
      rcases h with h | h <;> rw [h] <;> rfl
    simp [options.Skip, hnone]
  · intro g hn hh
    simp [options.Skip, hn, hh]

/-- Witness of claim C15: under the overrides `verbose: true` and
`mode: false`, the hidden flag `verbose` is not skipped, with or without the
short name `v`, and an override under `v` alone would not count. -/
theorem Skip_by_long_name_witness :
    exShowHide.Skip ⟨exVerbose, 0, true⟩ = false ∧
      exShowHide.Skip ⟨exVerbose, 118, true⟩ = exShowHide.Skip ⟨exVerbose, 0, true⟩ ∧
      exHideV.Skip ⟨exVerbose, 118, false⟩ = false ∧
      (buildOptions []).Skip ⟨exVerbose, 0, true⟩ = true :=
  ⟨(Skip_by_long_name exShowHide ⟨exVerbose, 0, true⟩).1 true rfl,
    (Skip_by_long_name exShowHide ⟨exVerbose, 0, true⟩).2.2.2 ⟨exVerbose, 118, true⟩
      rfl rfl,
    (Skip_by_long_name exHideV ⟨exVerbose, 118, false⟩).2.1 rfl,
    (Skip_by_long_name (buildOptions []) ⟨exVerbose, 0, true⟩).2.2.1 (Or.inl rfl)⟩

/-! ## Claim C16: the free-form default -/

/-- Claim C16: for every non-nil value without a predictor tag and every
predictor map, nil or not, `valuePredictor` returns a predictor and no error,
and the predictor is `predict.Something` when the value is not boolean and
its enum declaration is empty. -/
theorem valuePredictor_default (v : kong.Value)
    (predictors : Option (GoMap (Option complete.Predictor)))
    (hTag : v.Tag.Has predictorTag = false) :
    (v.IsBool = false → v.Enum = "" →
        valuePredictor (some v) predictors = (some complete.Predictor.Something, none)) ∧
      (∃ p, valuePredictor (some v) predictors = (some p, none)) ∧
      ∃ p, valuePredictor (some v) none = (some p, none) := by
  refine ⟨?_, ?_, ?_⟩
  · intro hb he
    rw [valuePredictor_untagged v predictors hTag]
    simp [hb, he]
  · rw [valuePredictor_untagged v predictors hTag]
    split_ifs
    · exact ⟨_, rfl⟩
    · exact ⟨_, rfl⟩
    · exact ⟨_, rfl⟩
  · rw [valuePredictor_untagged v none hTag]
    split_ifs
    · exact ⟨_, rfl⟩
    · exact ⟨_, rfl⟩
    · exact ⟨_, rfl⟩

/-- Witness of claim C16: an untagged string value, resolved with the nil map. -/
theorem valuePredictor_default_witness :
    valuePredictor (some (exString "file")) none =
      (some complete.Predictor.Something, none) :=
  (valuePredictor_default (exString "file") none rfl).1 rfl rfl

/-! ## Claim C18: when the translation fails -/

theorem mem_positionalValues (args : List (Option kong.Value)) (v : kong.Value) :
    v ∈ positionalValues args ↔ some v ∈ args := by
  induction args with
  | nil => simp [positionalValues]
  | cons hd tl ih =>
    cases hd with
    | none => simp [positionalValues, ih]
    | some w => simp [positionalValues, ih]

theorem mem_flagValues (opts : options) (fl : List (Option kong.Flag)) (v : kong.Value) :
    v ∈ flagValues opts fl ↔ ∃ f, some f ∈ fl ∧ opts.Skip f = false ∧ f.Value = v := by
  induction fl with
  | nil => simp [flagValues]
  | cons hd tl ih =>
    cases hd with
    | none => simp [flagValues, ih]
    | some g =>
      rw [flagValues]
      by_cases hs : opts.Skip g = true
      · rw [if_pos hs, ih]
        constructor
        · rintro ⟨f, hf, hrest⟩
          exact ⟨f, List.mem_cons_of_mem _ hf, hrest⟩
        · rintro ⟨f, hf, hsf, hv⟩
          rcases List.mem_cons.mp hf with e | h'
          · cases e
            rw [hsf] at hs
            cases hs
          · exact ⟨f, h', hsf, hv⟩
      · rw [if_neg hs, List.mem_cons, ih]
        constructor
        · rintro (e | ⟨f, hf, hrest⟩)
          · exact ⟨g, List.mem_cons_self _ _, by simpa using hs, e.symm⟩
          · exact ⟨f, List.mem_cons_of_mem _ hf, hrest⟩
        · rintro ⟨f, hf, hsf, hv⟩
          rcases List.mem_cons.mp hf with e | h'
          · cases e
            exact Or.inl hv.symm
          · exact Or.inr ⟨f, h', hsf, hv⟩

theorem mem_resolvedValuesChildren (opts : options) (ch : List (Option kong.Node))
    (v : kong.Value) :
    v ∈ resolvedValuesChildren opts ch ↔
      ∃ c, some c ∈ ch ∧ c.Hidden = false ∧ v ∈ resolvedValues opts c := by
  induction ch with
  | nil => simp [resolvedValuesChildren]
  | cons hd tl ih =>
    cases hd with
    | none =>
      rw [resolvedValuesChildren, ih]
      simp
    | some d =>
      rw [resolvedValuesChildren]
      by_cases hh : d.Hidden = true
      · rw [if_pos hh, ih]
        constructor
        · rintro ⟨c, hc, hrest⟩
          exact ⟨c, List.mem_cons_of_mem _ hc, hrest⟩
        · rintro ⟨c, hc, hhc, hv⟩
          rcases List.mem_cons.mp hc with e | h'
          · cases e
            rw [hhc] at hh
            cases hh
          · exact ⟨c, h', hhc, hv⟩
      · rw [if_neg hh, List.mem_append, ih]
        constructor
        · rintro (hv | ⟨c, hc, hrest⟩)
          · exact ⟨d, List.mem_cons_self _ _, by simpa using hh, hv⟩
          · exact ⟨c, List.mem_cons_of_mem _ hc, hrest⟩
        · rintro ⟨c, hc, hhc, hv⟩
          rcases List.mem_cons.mp hc with e | h'
          · cases e
            exact Or.inl hv
          · exact Or.inr ⟨c, h', hhc, hv⟩

/-- The values listed by `resolvedValues` are the resolved values. -/
theorem mem_resolvedValues (opts : options) (node : kong.Node) :
    ∀ v, v ∈ resolvedValues opts node ↔ Resolved opts node v := by
  induction node using kong.Node.induction_on with
  | step node ih =>
    intro v
    rw [resolvedValues_eq, List.mem_append, List.mem_append, mem_resolvedValuesChildren,
      mem_flagValues, mem_positionalValues]
    constructor
    · rintro ((⟨c, hc, hh, hv⟩ | ⟨f, hf, hs, rfl⟩) | hp)
      · exact Resolved.child hc hh ((ih c hc v).mp hv)
      · exact Resolved.flag hf hs
      · exact Resolved.positional hp
    · intro hr
      cases hr with
      | flag hf hs => exact Or.inl (Or.inr ⟨_, hf, hs, rfl⟩)
      | positional hp => exact Or.inr hp
      | child hc hh hr' => exact Or.inl (Or.inl ⟨_, hc, hh, (ih _ hc v).mpr hr'⟩)

/-- Claim C18: `nodeCommand` on a non-nil node returns an error (and a nil
command) exactly when some value that it resolves carries a predictor tag
whose name the predictor map does not bind, and returns a command exactly
when no resolved value does; the resolved values are those on flags that are
not skipped and in positional slots, of the node and of the nodes reached
through non-nil children that are not hidden, so a tag on a skipped flag or
below a hidden child has no part in it. -/
theorem translation_fails_iff (node : kong.Node) (opts : options) :
    ((∃ e, nodeCommand (some node) opts = (none, some e)) ↔
        ∃ v, Resolved opts node v ∧ Unresolvable opts.predictors v) ∧
      ((∃ cmd, nodeCommand (some node) opts = (some cmd, none)) ↔
        ∀ v, Resolved opts node v → ¬ Unresolvable opts.predictors v) ∧
      ∀ v, Resolved opts node v ↔
        (∃ f, some f ∈ node.Flags ∧ opts.Skip f = false ∧ f.Value = v) ∨
        some v ∈ node.Positional ∨
        ∃ c, some c ∈ node.Children ∧ c.Hidden = false ∧ Resolved opts c v := by
  have hfail : (∃ e, nodeCommand (some node) opts = (none, some e)) ↔
      ∃ v, Resolved opts node v ∧ Unresolvable opts.predictors v := by
    constructor
    · rintro ⟨e, he⟩
      obtain ⟨v, hv, hu, -⟩ := nodeCommandNode_error opts node e (by
        rw [nodeCommand] at he
        rw [he])
      exact ⟨v, hv, hu⟩
    · rintro ⟨v, hv, hu⟩
      exact nodeCommandNode_fails opts node v hv hu
  refine ⟨hfail, ?_, ?_⟩
  · constructor
    · rintro ⟨cmd, hc⟩ v hv hu
      obtain ⟨e, he⟩ := hfail.mpr ⟨v, hv, hu⟩
      rw [hc] at he
      cases he
    · intro hall
      rcases nodeCommandNode_shape node opts with he | hc
      · obtain ⟨v, hv, hu⟩ := hfail.mp he
        exact absurd hu (hall v hv)
      · exact hc
  · intro v
    constructor
    · intro hr
      cases hr with
      | flag hf hs => exact Or.inl ⟨_, hf, hs, rfl⟩
      | positional hp => exact Or.inr (Or.inl hp)
      | child hc hh hr' => exact Or.inr (Or.inr ⟨_, hc, hh, hr'⟩)
    · rintro (⟨f, hf, hs, rfl⟩ | hp | ⟨c, hc, hh, hr⟩)
      · exact Resolved.flag hf hs
      · exact Resolved.positional hp
      · exact Resolved.child hc hh hr

/-! ## Claim C17: the entries of `Sub` -/

theorem childEntries_append (opts : options) (l₁ l₂ : List (Option kong.Node)) :
    childEntries opts (l₁ ++ l₂) = childEntries opts l₁ ++ childEntries opts l₂ := by
  induction l₁ with
  | nil => simp [childEntries]
  | cons hd tl ih =>
    cases hd with
    | none => simp [childEntries, ih]
    | some c =>
      by_cases hh : c.Hidden = true
      · simp [childEntries, hh, ih]
      · rw [List.cons_append, childEntries, childEntries, if_neg hh, if_neg hh, ih]
        cases (nodeCommandNode c opts).1 <;> rfl

/-- When the loop over the children reports no error, every non-nil child
that is not hidden has a translation. -/
theorem childrenLoop_children_ok (opts : options) (ch : List (Option kong.Node))
    (init : GoMap complete.Command) (h : (childrenLoop ch opts init).2 = none)
    (c : kong.Node) (hc : some c ∈ ch) (hh : c.Hidden = false) :
    ∃ cc, nodeCommandNode c opts = (some cc, none) := by
  rcases nodeCommandNode_shape c opts with ⟨e, he⟩ | hok
  · obtain ⟨e', he'⟩ := childrenLoop_error_of opts ch init c hc hh (by
      rw [he]
      simp)
    rw [h] at he'
    cases he'
  · exact hok

theorem mem_keys_childEntries (opts : options) (ch : List (Option kong.Node))
    (hok : ∀ c, some c ∈ ch → c.Hidden = false →
      ∃ cc, nodeCommandNode c opts = (some cc, none))
    (k : String) :
    k ∈ (childEntries opts ch).map Prod.fst ↔
      ∃ c, some c ∈ ch ∧ c.Hidden = false ∧ c.Name = k := by
  constructor
  · intro hk
    obtain ⟨⟨k', cmd⟩, hmem, rfl⟩ := List.mem_map.mp hk
    obtain ⟨d, hd, hh, hn, -⟩ := mem_childEntries opts ch k' cmd hmem
    exact ⟨d, hd, hh, hn⟩
  · rintro ⟨c, hc, hh, rfl⟩
    obtain ⟨before, after, rfl⟩ := List.append_of_mem hc
    obtain ⟨cc, hcc⟩ := hok c hc hh
    rw [childEntries_append, childEntries, if_neg (by simp [hh]), hcc]
    simp

/-- Claim C17: when the translation of a node succeeds, the `Sub` map of the
result is initialised, its keys are exactly the names of the non-nil children
of the node that are not hidden, and for every such child that no later such
child shares its name with (so for every one whose name is unique, and for the
last of those that share a name) the entry under its name is the command that
`nodeCommand` returns for the child. -/
theorem sub_is_visible_children (node : kong.Node) (opts : options) (cmd : complete.Command)
    (h : nodeCommand (some node) opts = (some cmd, none)) :
    ∃ sub, cmd.Sub = some sub ∧ sub.keys.Nodup ∧
      (∀ k, k ∈ sub.keys ↔
        ∃ c, some c ∈ node.Children ∧ c.Hidden = false ∧ c.Name = k) ∧
      ∀ before c after, node.Children = before ++ some c :: after → c.Hidden = false →
        (∀ d, some d ∈ after → d.Hidden = false → d.Name ≠ c.Name) →
        ∃ cc, nodeCommand (some c) opts = (some cc, none) ∧ sub.get? c.Name = some cc := by
  obtain ⟨hsub, -, -, hloop, -⟩ := nodeCommandNode_success node opts cmd h
  have hok := childrenLoop_children_ok opts node.Children GoMap.empty hloop
  refine ⟨_, hsub, GoMap.nodup_keys_setAll _ _ GoMap.nodup_keys_empty, ?_, ?_⟩
  · intro k
    rw [GoMap.mem_keys_setAll, mem_keys_childEntries opts node.Children hok]
    simp [GoMap.empty, GoMap.keys]
  · intro before c after hpos hh hlast
    obtain ⟨cc, hcc⟩ := hok c (by rw [hpos]; simp) hh
    refine ⟨cc, hcc, ?_⟩
    rw [GoMap.get?_setAll, hpos, childEntries_append, lastBinding_append]
    have hcons : childEntries opts (some c :: after) =
        (c.Name, cc) :: childEntries opts after := by
      rw [childEntries, if_neg (by simp [hh]), hcc]
    have hnone : lastBinding c.Name (childEntries opts after) = none := by
      rw [lastBinding_eq_none_iff]
      intro hk
      obtain ⟨⟨k', x⟩, hmem, hk'⟩ := List.mem_map.mp hk
      obtain ⟨d, hd, hdh, hn, -⟩ := mem_childEntries opts after k' x hmem
      exact hlast d hd hdh (hn.trans hk')
    rw [hcons, lastBinding, hnone]
    simp

/-- Witness of claim C17: two children named `a` around a hidden child; the
entry under `a` is the translation of the second. -/
theorem sub_is_visible_children_witness :
    ∃ sub, complete.Command.Sub (.mk (some ⟨[("a", .mk (some GoMap.empty) (some GoMap.empty)
          (some complete.Predictor.Something))]⟩) (some GoMap.empty) none) = some sub ∧
      sub.keys.Nodup ∧
      (∀ k, k ∈ sub.keys ↔
        ∃ c, some c ∈ exSameName.Children ∧ c.Hidden = false ∧ c.Name = k) ∧
      ∀ before c after, exSameName.Children = before ++ some c :: after → c.Hidden = false →
        (∀ d, some d ∈ after → d.Hidden = false → d.Name ≠ c.Name) →
        ∃ cc, nodeCommand (some c) (buildOptions []) = (some cc, none) ∧
          sub.get? c.Name = some cc :=
  sub_is_visible_children exSameName (buildOptions []) _ rfl

/-! ## Claim C19: the keys of `Flags` -/

theorem runeString_length (r : Int) : (runeString r).length = 1 := by
  unfold runeString
  split_ifs <;> rfl

/-- Claim C19: when the translation of a node succeeds, the `Flags` map of the
result is initialised and its keys are exactly the long names of the non-nil
flags of the node that are not skipped and the strings of their short runes
that are not zero; each such string has one character; nothing but the flags
of the node itself enters into it. -/
theorem flags_key_set (node : kong.Node) (opts : options) (cmd : complete.Command)
    (h : nodeCommand (some node) opts = (some cmd, none)) :
    ∃ flags, cmd.Flags = some flags ∧ flags.keys.Nodup ∧
      (∀ k, k ∈ flags.keys ↔
        ∃ f, some f ∈ node.Flags ∧ opts.Skip f = false ∧
          (k = f.Name ∨ (f.Short ≠ 0 ∧ k = runeString f.Short))) ∧
      ∀ f, some f ∈ node.Flags → (runeString f.Short).length = 1 := by
  obtain ⟨-, hflags, -⟩ := nodeCommandNode_success node opts cmd h
  refine ⟨_, hflags, GoMap.nodup_keys_setAll _ _ GoMap.nodup_keys_empty, ?_,
    fun f _ => runeString_length f.Short⟩
  intro k
  rw [GoMap.mem_keys_setAll, mem_keys_flagEntries]
  simp only [GoMap.empty, GoMap.keys, List.map_nil, List.not_mem_nil, or_false]
  constructor
  · rintro ⟨f, hf, hs, hk⟩
    refine ⟨f, hf, hs, ?_⟩
    unfold flagKeys at hk
    split_ifs at hk with h0
    · simp only [List.mem_cons, List.mem_singleton, List.not_mem_nil, or_false] at hk
      rcases hk with e | e
      · exact Or.inl e
      · exact Or.inr ⟨h0, e⟩
    · simp only [List.mem_singleton] at hk
      exact Or.inl hk
  · rintro ⟨f, hf, hs, hk⟩
    refine ⟨f, hf, hs, ?_⟩
    unfold flagKeys
    rcases hk with e | ⟨h0, e⟩
    · split_ifs <;> simp [e]
    · simp [h0, e]

/-- Witness of claim C19: the end-to-end example, whose keys are `verbose`,
`v` and `mode`. -/
theorem flags_key_set_witness :
    ∃ flags, complete.Command.Flags (.mk (some GoMap.empty)
          (some ⟨[("verbose", some complete.Predictor.Nothing),
            ("v", some complete.Predictor.Nothing),
            ("mode", some (complete.Predictor.Set ["fast", "slow"]))]⟩)
          (some complete.Predictor.Something)) = some flags ∧
      flags.keys.Nodup ∧
      (∀ k, k ∈ flags.keys ↔
        ∃ f, some f ∈ (exEndToEnd ["fast", "slow"]).Flags ∧
          (buildOptions []).Skip f = false ∧
          (k = f.Name ∨ (f.Short ≠ 0 ∧ k = runeString f.Short))) ∧
      ∀ f, some f ∈ (exEndToEnd ["fast", "slow"]).Flags → (runeString f.Short).length = 1 :=
  flags_key_set (exEndToEnd ["fast", "slow"]) (buildOptions []) _ rfl

/-! ## Claim C20: the override map -/

theorem copyOverrides_eq_setAll (l : List (String × Bool)) (all : GoMap Bool) :
    copyOverrides l all = GoMap.setAll l all := by
  induction l generalizing all with
  | nil => rfl
  | cons hd tl ih =>
    obtain ⟨a, b⟩ := hd
    rw [copyOverrides, GoMap.setAll]
    exact ih _

theorem get?_mergeOverrides (ms : List (GoMap Bool)) (hmaps : ∀ m ∈ ms, m.keys.Nodup)
    (all : GoMap Bool) (k : String) :
    (mergeOverrides ms all).get? k =
      match lastOverride k ms with
      | some b => some b
      | none => all.get? k := by
  induction ms generalizing all with
  | nil => rfl
  | cons m rest ih =>
    rw [mergeOverrides, ih (fun x hx => hmaps x (List.mem_cons_of_mem _ hx)), lastOverride,
      copyOverrides_eq_setAll, GoMap.get?_setAll,
      lastBinding_eq_lookupEntries k m.entries (hmaps m (List.mem_cons_self _ _))]
    cases lastOverride k rest with
    | some b => rfl
    | none =>
      have hget : m.get? k = GoMap.lookupEntries k m.entries := rfl
      simp only [hget]
      cases GoMap.lookupEntries k m.entries <;> rfl

theorem nodup_mergeOverrides (ms : List (GoMap Bool)) (all : GoMap Bool)
    (h : all.keys.Nodup) : (mergeOverrides ms all).keys.Nodup := by
  induction ms generalizing all with
  | nil => exact h
  | cons m rest ih =>
    rw [mergeOverrides, copyOverrides_eq_setAll]
    exact ih _ (GoMap.nodup_keys_setAll _ _ h)

theorem applyOptions_append (l₁ l₂ : List Opt) (o : options) :
    applyOptions (l₁ ++ l₂) o = applyOptions l₂ (applyOptions l₁ o) := by
  induction l₁ generalizing o with
  | nil => rfl
  | cons hd tl ih =>
    rw [List.cons_append, applyOptions, applyOptions]
    exact ih _

theorem toOpt_overrides (c : OptionCall) (hc : c.isFlagOverrides = false) (o : options) :
    (c.toOpt o).overrides = o.overrides := by
  cases c with
  | predictor name p => rfl
  | predictors m => exact (WithPredictorsLoop_frame m.entries o).2.2
  | exitFunc f => rfl
  | errorHandler f => rfl
  | flagOverrides ms => cases hc

theorem applyOptions_overrides (cs : List OptionCall)
    (hcs : ∀ c ∈ cs, c.isFlagOverrides = false) (o : options) :
    (applyOptions (cs.map OptionCall.toOpt) o).overrides = o.overrides := by
  induction cs generalizing o with
  | nil => rfl
  | cons hd tl ih =>
    rw [List.map_cons, applyOptions, ih (fun c hc => hcs c (List.mem_cons_of_mem _ hc)),
      toOpt_overrides hd (hcs hd (List.mem_cons_self _ _))]

/-- Claim C20: `WithFlagOverrides(m1, ..., mn)`, the maps being Go maps with
distinct keys, sets the overrides of the options to a map that binds every
name to the value it has in the last of the maps that contains it, and to
nothing else, and leaves the predictor map, the exit function and the error
handler as they are; and after `buildOptions` the overrides are those of the
last `WithFlagOverrides` among the options alone, whatever options come
before it and whatever other options come after it. -/
theorem WithFlagOverrides_last_wins (ms : List (GoMap Bool))
    (hmaps : ∀ m ∈ ms, m.keys.Nodup) (o : options) (before after : List OptionCall)
    (hafter : ∀ c ∈ after, c.isFlagOverrides = false) :
    (∃ m, (WithFlagOverrides ms o).overrides = some m ∧ m.keys.Nodup ∧
        ∀ k, m.get? k = lastOverride k ms) ∧
      (WithFlagOverrides ms o).predictors = o.predictors ∧
      (WithFlagOverrides ms o).exitFunc = o.exitFunc ∧
      (WithFlagOverrides ms o).errorHandler = o.errorHandler ∧
      (buildOptions ((before ++ OptionCall.flagOverrides ms :: after).map
        OptionCall.toOpt)).overrides = (WithFlagOverrides ms o).overrides := by
  refine ⟨⟨mergeOverrides ms GoMap.empty, rfl,
    nodup_mergeOverrides ms GoMap.empty GoMap.nodup_keys_empty, ?_⟩, rfl, rfl, rfl, ?_⟩
  · intro k
    rw [get?_mergeOverrides ms hmaps GoMap.empty k, GoMap.get?_empty]
    cases lastOverride k ms <;> rfl
  · rw [buildOptions, List.map_append, applyOptions_append, List.map_cons, applyOptions,
      applyOptions_overrides after hafter]
    rfl

/-- Witness of claim C20: of two calls of `WithFlagOverrides` the second
alone counts, and in it `mode` has the value of the second map. -/
theorem WithFlagOverrides_last_wins_witness :
    (buildOptions (exOverrideCalls.map OptionCall.toOpt)).overrides =
        some ⟨[("mode", false), ("v", true)]⟩ ∧
      lastOverride "mode" [⟨[("mode", true), ("v", true)]⟩, ⟨[("mode", false)]⟩] =
        some false ∧
      ((∃ m, (WithFlagOverrides [⟨[("mode", true), ("v", true)]⟩, ⟨[("mode", false)]⟩]
          (buildOptions [])).overrides = some m ∧ m.keys.Nodup ∧
          ∀ k, m.get? k =
            lastOverride k [⟨[("mode", true), ("v", true)]⟩, ⟨[("mode", false)]⟩]) ∧
        (WithFlagOverrides [⟨[("mode", true), ("v", true)]⟩, ⟨[("mode", false)]⟩]
          (buildOptions [])).predictors = (buildOptions []).predictors ∧
        (WithFlagOverrides [⟨[("mode", true), ("v", true)]⟩, ⟨[("mode", false)]⟩]
          (buildOptions [])).exitFunc = (buildOptions []).exitFunc ∧
        (WithFlagOverrides [⟨[("mode", true), ("v", true)]⟩, ⟨[("mode", false)]⟩]
          (buildOptions [])).errorHandler = (buildOptions []).errorHandler ∧
        (buildOptions (([OptionCall.flagOverrides [⟨[("verbose", false)]⟩],
            OptionCall.predictor "p" (some (.custom 1))] ++
          OptionCall.flagOverrides [⟨[("mode", true), ("v", true)]⟩, ⟨[("mode", false)]⟩] ::
            [OptionCall.exitFunc (some exFinalExit)]).map OptionCall.toOpt)).overrides =
          (WithFlagOverrides [⟨[("mode", true), ("v", true)]⟩, ⟨[("mode", false)]⟩]
            (buildOptions [])).overrides) :=
  ⟨rfl, rfl, WithFlagOverrides_last_wins
    [⟨[("mode", true), ("v", true)]⟩, ⟨[("mode", false)]⟩]
    (by
      intro m hm
      simp only [List.mem_cons, List.mem_singleton, List.not_mem_nil, or_false] at hm
      rcases hm with rfl | rfl
      · show List.Nodup ["mode", "v"]
        decide
      · show List.Nodup ["mode"]
        decide)
    (buildOptions [])
    [OptionCall.flagOverrides [⟨[("verbose", false)]⟩],
      OptionCall.predictor "p" (some (.custom 1))]
    [OptionCall.exitFunc (some exFinalExit)]
    (by
      intro c hc
      simp only [List.mem_singleton] at hc
      subst hc
      rfl)⟩

end KongCompletion
